import Mathlib

/-!
Verification of the `fast-fec-rust` core: the encoding normalizer
(`src/encoding/mod.rs`), the buffered multi-stream writer
(`src/writer/mod.rs`) and the delimiter-flag handling of the parser
(`src/fec/parser.rs`), shallowly embedded over byte lists (`List Nat`,
every byte `< 256`).  Rust strings are represented by their UTF-8 byte
sequences.
-/

set_option maxHeartbeats 2000000
set_option maxRecDepth 10000

namespace FastFec

/-! ## Encoding normalizer (`src/encoding/mod.rs`) -/

/-- `UTF8_ACCEPT` state of the Hoehrmann machine. -/
def UTF8_ACCEPT : Nat := 0

/-- `UTF8_REJECT` state of the Hoehrmann machine. -/
def UTF8_REJECT : Nat := 1

/-- The Hoehrmann `UTF8D` table from `encoding/mod.rs` (400 entries:
256 byte-class entries followed by 9 rows of 16 transition entries). -/
def UTF8D : List Nat :=
  [0, 0, 0, 0, 0, 0, 0, 0, 0, 0, 0, 0, 0, 0, 0, 0,
   0, 0, 0, 0, 0, 0, 0, 0, 0, 0, 0, 0, 0, 0, 0, 0,
   0, 0, 0, 0, 0, 0, 0, 0, 0, 0, 0, 0, 0, 0, 0, 0,
   0, 0, 0, 0, 0, 0, 0, 0, 0, 0, 0, 0, 0, 0, 0, 0,
   0, 0, 0, 0, 0, 0, 0, 0, 0, 0, 0, 0, 0, 0, 0, 0,
   0, 0, 0, 0, 0, 0, 0, 0, 0, 0, 0, 0, 0, 0, 0, 0,
   0, 0, 0, 0, 0, 0, 0, 0, 0, 0, 0, 0, 0, 0, 0, 0,
   0, 0, 0, 0, 0, 0, 0, 0, 0, 0, 0, 0, 0, 0, 0, 0,
   1, 1, 1, 1, 1, 1, 1, 1, 1, 1, 1, 1, 1, 1, 1, 1,
   9, 9, 9, 9, 9, 9, 9, 9, 9, 9, 9, 9, 9, 9, 9, 9,
   7, 7, 7, 7, 7, 7, 7, 7, 7, 7, 7, 7, 7, 7, 7, 7,
   7, 7, 7, 7, 7, 7, 7, 7, 7, 7, 7, 7, 7, 7, 7, 7,
   8, 8, 2, 2, 2, 2, 2, 2, 2, 2, 2, 2, 2, 2, 2, 2,
   2, 2, 2, 2, 2, 2, 2, 2, 2, 2, 2, 2, 2, 2, 2, 2,
   10, 3, 3, 3, 3, 3, 3, 3, 3, 3, 3, 3, 3, 4, 3, 3,
   11, 6, 6, 6, 5, 8, 8, 8, 8, 8, 8, 8, 8, 8, 8, 8,
   0, 1, 2, 3, 5, 8, 7, 1, 1, 1, 4, 6, 1, 1, 1, 1,
   1, 1, 1, 1, 1, 1, 1, 1, 1, 1, 1, 1, 1, 1, 1, 1,
   1, 0, 1, 1, 1, 1, 1, 0, 1, 0, 1, 1, 1, 1, 1, 1,
   1, 2, 1, 1, 1, 1, 1, 2, 1, 2, 1, 1, 1, 1, 1, 1,
   1, 1, 1, 1, 1, 1, 1, 2, 1, 1, 1, 1, 1, 1, 1, 1,
   1, 2, 1, 1, 1, 1, 1, 1, 1, 2, 1, 1, 1, 1, 1, 1,
   1, 1, 1, 1, 1, 1, 1, 3, 1, 3, 1, 1, 1, 1, 1, 1,
   1, 3, 1, 1, 1, 1, 1, 3, 1, 3, 1, 1, 1, 1, 1, 1,
   1, 3, 1, 1, 1, 1, 1, 1, 1, 1, 1, 1, 1, 1, 1, 1]

/-- Table lookup `UTF8D[i]`; every use below is in bounds, the default
is irrelevant (chosen as the reject state). -/
def utf8d (i : Nat) : Nat := UTF8D.getD i 1

/-- One transition of the Hoehrmann automaton, as executed in the loop
of `collect_line_info`: `state = UTF8D[256 + state*16 + UTF8D[byte]]`. -/
def utf8step (state byte : Nat) : Nat := utf8d (256 + (state * 16 + utf8d byte))

/-- Row `r` of the transition part of `UTF8D` (proof aid: a lookup
shape the kernel evaluates cheaply; proved equal to `UTF8D` below). -/
def utf8dRow (r : Nat) : List Nat :=
  if r = 0 then [0, 1, 2, 3, 5, 8, 7, 1, 1, 1, 4, 6, 1, 1, 1, 1]
  else if r = 1 then [1, 1, 1, 1, 1, 1, 1, 1, 1, 1, 1, 1, 1, 1, 1, 1]
  else if r = 2 then [1, 0, 1, 1, 1, 1, 1, 0, 1, 0, 1, 1, 1, 1, 1, 1]
  else if r = 3 then [1, 2, 1, 1, 1, 1, 1, 2, 1, 2, 1, 1, 1, 1, 1, 1]
  else if r = 4 then [1, 1, 1, 1, 1, 1, 1, 2, 1, 1, 1, 1, 1, 1, 1, 1]
  else if r = 5 then [1, 2, 1, 1, 1, 1, 1, 1, 1, 2, 1, 1, 1, 1, 1, 1]
  else if r = 6 then [1, 1, 1, 1, 1, 1, 1, 3, 1, 3, 1, 1, 1, 1, 1, 1]
  else if r = 7 then [1, 3, 1, 1, 1, 1, 1, 3, 1, 3, 1, 1, 1, 1, 1, 1]
  else [1, 3, 1, 1, 1, 1, 1, 1, 1, 1, 1, 1, 1, 1, 1, 1]

/-- The byte-class part of `UTF8D` as an interval chain (proof aid). -/
def utf8dClass (i : Nat) : Nat :=
  if i < 0x80 then 0
  else if i < 0x90 then 1
  else if i < 0xa0 then 9
  else if i < 0xc0 then 7
  else if i < 0xc2 then 8
  else if i < 0xe0 then 2
  else if i = 0xe0 then 10
  else if i < 0xed then 3
  else if i = 0xed then 4
  else if i < 0xf0 then 3
  else if i = 0xf0 then 11
  else if i < 0xf4 then 6
  else if i = 0xf4 then 5
  else 8

/-- `UTF8D` lookup in a kernel-friendly shape (proof aid). -/
def utf8dFun (i : Nat) : Nat :=
  if i < 256 then utf8dClass i else (utf8dRow ((i - 256) / 16)).getD ((i - 256) % 16) 1

/-- `utf8step` in a kernel-friendly shape (proof aid). -/
def utf8stepFun (state byte : Nat) : Nat := utf8dFun (256 + (state * 16 + utf8dFun byte))

/-- `LINE_INFO` / `LineInfo` from `encoding/mod.rs`. -/
structure LineInfo where
  ascii28 : Bool
  ascii_only : Bool
  valid_utf8 : Bool
  length : Nat
deriving DecidableEq, Repr

/-- `LineInfo::default()`. -/
def LineInfo.init : LineInfo :=
  { ascii28 := false, ascii_only := true, valid_utf8 := true, length := 0 }

/-- One iteration of the byte loop in `collect_line_info`. -/
def lineStep (p : LineInfo × Nat) (byte : Nat) : LineInfo × Nat :=
  let info := p.1
  let state := p.2
  let info := { info with length := info.length + 1 }
  let info := if byte = 28 then { info with ascii28 := true } else info
  let info := if byte > 127 then { info with ascii_only := false } else info
  let nextState := utf8step state byte
  let info := if nextState = UTF8_REJECT then { info with valid_utf8 := false } else info
  (info, nextState)

/-- `collect_line_info` from `encoding/mod.rs`: fold the per-byte loop
over the data, starting from the default info and the accept state. -/
def collect_line_info (data : List Nat) : LineInfo :=
  (data.foldl lineStep (LineInfo.init, UTF8_ACCEPT)).1

/-- `iso_8859_1_to_utf8` from `encoding/mod.rs`: bytes `< 128` pass
through, larger bytes expand to `0xC2 + (b > 0xBF)` and `(b & 0x3F) + 0x80`. -/
def iso_8859_1_to_utf8 (data : List Nat) : List Nat :=
  match data with
  | [] => []
  | b :: rest =>
    if b < 128 then b :: iso_8859_1_to_utf8 rest
    else (0xc2 + (if b > 0xbf then 1 else 0)) :: ((b &&& 0x3f) + 0x80) :: iso_8859_1_to_utf8 rest

/-- The per-byte expansion rule of the fallback: bytes `< 128` pass
through; bytes `≥ 128` become `0xC2 + (b > 0xBF)` and `(b & 0x3F) | 0x80`. -/
def expandByte (b : Nat) : List Nat :=
  if b < 128 then [b]
  else [0xc2 + (if b > 0xbf then 1 else 0), (b &&& 0x3f) + 0x80]

/-- The pending continuation-byte checks of the UTF-8 validator: each
entry is the allowed `(lo, hi)` range of the next byte. -/
abbrev ContRanges := List (Nat × Nat)

/-- Validity of a byte sequence as UTF-8, byte by byte, following the
table used by Rust's `std::str::from_utf8` (`core::str::validations`):
at a character boundary (no pending ranges) the lead byte selects the
sequence width and the allowed ranges of the following bytes — ASCII;
two-byte with lead `C2..DF`; three-byte with the `E0/ED` second-byte
restrictions; four-byte with the `F0/F4` second-byte restrictions;
everything else (stray continuation bytes, overlong forms, surrogates,
beyond `U+10FFFF`) invalid.  With pending ranges, the next byte must
fall in the first range.  Input ending with pending ranges (a truncated
sequence) is invalid. -/
def validFrom : ContRanges → List Nat → Bool
  | [], [] => true
  | _ :: _, [] => false
  | [], b :: rest =>
    if b ≤ 0x7f then validFrom [] rest
    else if b < 0xc2 then false
    else if b ≤ 0xdf then validFrom [(0x80, 0xbf)] rest
    else if b ≤ 0xef then
      validFrom [((if b = 0xe0 then 0xa0 else 0x80), (if b = 0xed then 0x9f else 0xbf)),
        (0x80, 0xbf)] rest
    else if b ≤ 0xf4 then
      validFrom [((if b = 0xf0 then 0x90 else 0x80), (if b = 0xf4 then 0x8f else 0xbf)),
        (0x80, 0xbf), (0x80, 0xbf)] rest
    else false
  | (lo, hi) :: pending, c :: rest =>
    (lo ≤ c && c ≤ hi) && validFrom pending rest

/-- Validity of a whole byte sequence as UTF-8 (what `from_utf8`
checks). -/
def validUtf8 (l : List Nat) : Bool := validFrom [] l

/-- `std::str::from_utf8` / `String::from_utf8`: succeeds exactly on
valid UTF-8, returning the same bytes (a Rust `String` is its UTF-8
byte sequence). -/
def from_utf8 (data : List Nat) : Option (List Nat) :=
  if validUtf8 data then some data else none

/-- `decode_line` from `encoding/mod.rs`.  `none` models a panic of the
`.unwrap()` calls on `String::from_utf8` (proved unreachable below);
otherwise the result is the decoded text (as UTF-8 bytes) paired with
the `ascii28` flag. -/
def decode_line (data : List Nat) : Option (List Nat × Bool) :=
  let info := collect_line_info data
  if !info.valid_utf8 then
    match from_utf8 (iso_8859_1_to_utf8 data) with
    | some s => some (s, info.ascii28)
    | none => none
  else
    match from_utf8 data with
    | some s => some (s, info.ascii28)
    | none =>
      match from_utf8 (iso_8859_1_to_utf8 data) with
      | some s => some (s, info.ascii28)
      | none => none

/-- The state of the Hoehrmann automaton after scanning `data` from state
`state` (the `state` variable of the loop in `collect_line_info`). -/
def utf8run (state : Nat) (data : List Nat) : Nat := data.foldl utf8step state

/-- Whether the automaton, started in `state`, never enters the reject
state while scanning `data`; this is the value `collect_line_info`
computes into `valid_utf8` (proved below). -/
def scanOk : Nat → List Nat → Bool
  | _, [] => true
  | state, b :: rest =>
    let nextState := utf8step state b
    if nextState = UTF8_REJECT then false else scanOk nextState rest

/-! ## Buffered multi-stream writer (`src/writer/mod.rs`)

External effects are recorded in ghost traces: `sink` holds the chunks
handed to the `custom_write_fn` byte-sink callback, `file_writes` the
chunks written to open disk handles, `line_calls` the invocations of
the `custom_line_fn` line callback.  The callbacks themselves and the
OS file handles are outside the program; they are modelled as
always-succeeding recorders (failure injection for teardown is handled
separately by `drop_outcome`).  Filesystem path construction is pure
I/O and is abstracted: a handle is `some ()` exactly when
`write_to_disk` is set. -/

/-- `BUFFER_FILE` / `BufferFile`. -/
structure BufferFile where
  buffer : List Nat
  position : Nat
  capacity : Nat
deriving DecidableEq, Repr

/-- `BufferFile::new`. -/
def BufferFile.new (capacity : Nat) : BufferFile :=
  { buffer := [], position := 0, capacity := capacity }

/-- `BufferFile::write_bytes`: fill up to the remaining capacity and
return the leftover bytes. -/
def BufferFile.write_bytes (bf : BufferFile) (data : List Nat) : BufferFile × List Nat :=
  let space_left := bf.capacity - bf.position
  if data.length ≤ space_left then
    ({ bf with buffer := bf.buffer ++ data, position := bf.position + data.length }, [])
  else
    ({ bf with buffer := bf.buffer ++ data.take space_left,
               position := bf.position + space_left },
     data.drop space_left)

/-- `BufferFile::is_empty`. -/
def BufferFile.is_empty (bf : BufferFile) : Bool := bf.position = 0

/-- `BufferFile::clear`. -/
def BufferFile.clear (bf : BufferFile) : BufferFile := { bf with buffer := [], position := 0 }

/-- `FileEntry`. -/
structure FileEntry where
  buffer_file : BufferFile
  file : Option Unit
deriving DecidableEq, Repr

/-- `FileEntry::new`. -/
def FileEntry.new (buffer_capacity : Nat) (file : Option Unit) : FileEntry :=
  { buffer_file := BufferFile.new buffer_capacity, file := file }

/-- The `(filename, extension)` key of the `open_files` map. -/
abbrev StreamKey := String × String

/-- `WRITE_CONTEXT` / `WriterContext`.  The `HashMap` is modelled as an
association list (keys are unique; insertion appends). -/
structure WriterContext where
  output_directory : String
  filing_id : String
  write_to_disk : Bool
  buffer_size : Nat
  open_files : List (StreamKey × FileEntry)
  last_file_key : Option StreamKey
  local_mode : Bool
  local_buffer : List Nat
  local_buffer_pos : Nat
  has_line_fn : Bool
  custom_line_buffer : List Nat
  has_write_fn : Bool
  sink : List (String × String × List Nat)
  file_writes : List (StreamKey × List Nat)
  line_calls : List (String × List Nat × String)
deriving DecidableEq, Repr

/-- `WriterContext::new`: note that it accepts every `buffer_size`,
including `0`, and has no failure path. -/
def WriterContext.new (output_directory filing_id : String) (write_to_disk : Bool)
    (buffer_size : Nat) (has_write_fn has_line_fn : Bool) : WriterContext :=
  { output_directory := output_directory, filing_id := filing_id,
    write_to_disk := write_to_disk, buffer_size := buffer_size,
    open_files := [], last_file_key := none,
    local_mode := false, local_buffer := [], local_buffer_pos := 0,
    has_line_fn := has_line_fn, custom_line_buffer := [],
    has_write_fn := has_write_fn,
    sink := [], file_writes := [], line_calls := [] }

/-- `HashMap::get` / `get_mut` on the association list. -/
def findEntry : List (StreamKey × FileEntry) → StreamKey → Option FileEntry
  | [], _ => none
  | (k, fe) :: rest, key => if k = key then some fe else findEntry rest key

/-- Mutation through a `get_mut` borrow: replace the value stored at `key`. -/
def updateEntry : List (StreamKey × FileEntry) → StreamKey → FileEntry →
    List (StreamKey × FileEntry)
  | [], _, _ => []
  | (k, fe) :: rest, key, fe' =>
    if k = key then (k, fe') :: rest else (k, fe) :: updateEntry rest key fe'

/-- The part of `WriterContext::get_file_entry` after the `last_file_key`
fast path: full map lookup, lazy creation (opening a disk handle only if
`write_to_disk`), insertion and `last_file_key` update. -/
def get_file_entry_full (w : WriterContext) (filename extension : String) :
    Except String (WriterContext × FileEntry × Bool) :=
  let key : StreamKey := (filename, extension)
  match findEntry w.open_files key with
  | some fe => .ok ({ w with last_file_key := some key }, fe, false)
  | none =>
    let file : Option Unit := if w.write_to_disk then some () else none
    let entry := FileEntry.new w.buffer_size file
    let w' := { w with open_files := w.open_files ++ [(key, entry)],
                       last_file_key := some key }
    match findEntry w'.open_files key with
    | some fe => .ok (w', fe, true)
    | none => .error "Failed to insert new FileEntry"

/-- `WriterContext::get_file_entry`: `last_file_key` fast path, then the
full lookup/creation path.  Returns the (possibly updated) context, the
entry the Rust code hands out as `&mut FileEntry`, and the `is_new` flag. -/
def get_file_entry (w : WriterContext) (filename extension : String) :
    Except String (WriterContext × FileEntry × Bool) :=
  match w.last_file_key with
  | some key =>
    if key.1 = filename ∧ key.2 = extension then
      match findEntry w.open_files key with
      | some fe => .ok (w, fe, false)
      | none => .error "File entry not found in open_files!"
    else get_file_entry_full w filename extension
  | none => get_file_entry_full w filename extension

/-- `WriterContext::flush_buffer`: nothing to do on an empty buffer;
otherwise clear the buffer and deliver its contents first to the
byte-sink callback (if any), then to the disk handle (if any). -/
def flush_buffer (w : WriterContext) (filename extension : String) :
    Except String WriterContext :=
  match get_file_entry w filename extension with
  | .error e => .error e
  | .ok (w1, entry, _) =>
    if entry.buffer_file.is_empty then .ok w1
    else
      let contents := entry.buffer_file.buffer
      let entry' := { entry with buffer_file := entry.buffer_file.clear }
      let w2 := { w1 with open_files := updateEntry w1.open_files (filename, extension) entry' }
      let w3 := if w2.has_write_fn then
          { w2 with sink := w2.sink ++ [(filename, extension, contents)] }
        else w2
      let w4 := match entry.file with
        | some _ => { w3 with file_writes := w3.file_writes ++ [((filename, extension), contents)] }
        | none => w3
      .ok w4

/-- The `while !overflow.is_empty()` loop of `WriterContext::write_bytes`,
with explicit fuel: `none` models non-termination (the Rust loop makes no
progress and never exits once the per-iteration work repeats a state). -/
def write_bytes_loop (filename extension : String) :
    Nat → WriterContext → List Nat → Option (Except String WriterContext)
  | _, w, [] => some (.ok w)
  | 0, _, _ :: _ => none
  | fuel + 1, w, overflow =>
    match get_file_entry w filename extension with
    | .error e => some (.error e)
    | .ok (w1, entry, _) =>
      let wr := entry.buffer_file.write_bytes overflow
      let entry' := { entry with buffer_file := wr.1 }
      let w2 := { w1 with open_files := updateEntry w1.open_files (filename, extension) entry' }
      if wr.2.isEmpty then some (.ok w2)
      else
        match flush_buffer w2 filename extension with
        | .error e => some (.error e)
        | .ok w3 => write_bytes_loop filename extension fuel w3 wr.2

/-- `WriterContext::write_bytes`. -/
def write_bytes (fuel : Nat) (w : WriterContext) (filename extension : String)
    (data : List Nat) : Option (Except String WriterContext) :=
  write_bytes_loop filename extension fuel w data

/-- `WriterContext::write_string`: local-capture mode diverts to the
local buffer; otherwise write the bytes and, when a line callback is
registered, accumulate into `custom_line_buffer`. -/
def write_string (fuel : Nat) (w : WriterContext) (filename extension : String)
    (s : List Nat) : Option (Except String WriterContext) :=
  if w.local_mode then
    some (.ok { w with local_buffer := w.local_buffer ++ s,
                       local_buffer_pos := w.local_buffer_pos + s.length })
  else
    match write_bytes fuel w filename extension s with
    | some (.ok w1) =>
      some (.ok (if w1.has_line_fn then
          { w1 with custom_line_buffer := w1.custom_line_buffer ++ s }
        else w1))
    | r => r

/-- `char::encode_utf8`: the UTF-8 bytes of a scalar value. -/
def charBytes (c : Char) : List Nat :=
  let n := c.toNat
  if n < 0x80 then [n]
  else if n < 0x800 then [0xc0 + n / 64, 0x80 + n % 64]
  else if n < 0x10000 then [0xe0 + n / 4096, 0x80 + n / 64 % 64, 0x80 + n % 64]
  else [0xf0 + n / 262144, 0x80 + n / 4096 % 64, 0x80 + n / 64 % 64, 0x80 + n % 64]

/-- `WriterContext::write_char`. -/
def write_char (fuel : Nat) (w : WriterContext) (filename extension : String)
    (c : Char) : Option (Except String WriterContext) :=
  let cbytes := charBytes c
  if w.local_mode then
    some (.ok { w with local_buffer := w.local_buffer ++ cbytes,
                       local_buffer_pos := w.local_buffer_pos + cbytes.length })
  else
    match write_bytes fuel w filename extension cbytes with
    | some (.ok w1) =>
      some (.ok (if w1.has_line_fn then
          { w1 with custom_line_buffer := w1.custom_line_buffer ++ cbytes }
        else w1))
    | r => r

/-- Modelled from the spec: the row serialization of the external `csv`
crate used by `write_csv_record` (the crate is not part of this
repository).  A field containing a double quote or a comma is wrapped in
double quotes with internal quotes doubled; other fields are emitted
unescaped. -/
def csvEscapeField (f : List Nat) : List Nat :=
  if f.contains 34 || f.contains 44 then
    34 :: (f.flatMap fun b => if b = 34 then [34, 34] else [b]) ++ [34]
  else f

/-- Modelled from the spec: one serialized CSV row — escaped fields
joined by commas, terminated by a newline. -/
def csvSerializeRecord (fields : List (List Nat)) : List Nat :=
  List.intercalate [44] (fields.map csvEscapeField) ++ [10]

/-- `WriterContext::write_csv_record`: serialize the row, then either
append to the local capture buffer or write it to the `.csv` stream
(the extension is passed with its dot trimmed). -/
def write_csv_record (fuel : Nat) (w : WriterContext) (filename : String)
    (fields : List (List Nat)) : Option (Except String WriterContext) :=
  let buffer := csvSerializeRecord fields
  if w.local_mode then
    some (.ok { w with local_buffer := w.local_buffer ++ buffer,
                       local_buffer_pos := w.local_buffer_pos + buffer.length })
  else
    write_bytes fuel w filename "csv" buffer

/-- `WriterContext::end_line`: invoke the line callback (recorded in
`line_calls`) with the name of the most recently touched stream and the
accumulated line, then clear the line buffer. -/
def end_line (w : WriterContext) (types : String) : WriterContext :=
  let w1 := if w.has_line_fn then
      { w with line_calls := w.line_calls ++
          [((w.last_file_key.map Prod.fst).getD "", w.custom_line_buffer, types)] }
    else w
  { w1 with custom_line_buffer := [] }

/-- `WriterContext::start_local_buffer_mode`. -/
def start_local_buffer_mode (w : WriterContext) : WriterContext :=
  { w with local_mode := true, local_buffer := [], local_buffer_pos := 0 }

/-- `WriterContext::finish_local_buffer_mode`: returns the captured
content and the updated context. -/
def finish_local_buffer_mode (w : WriterContext) : List Nat × WriterContext :=
  (w.local_buffer,
   { w with local_mode := false, local_buffer := [], local_buffer_pos := 0 })

/-- The loop of `WriterContext::flush_all` over the up-front cloned key
list (the OS-level `File::flush` has no effect on the modelled state). -/
def flush_all_go : List StreamKey → WriterContext → Except String WriterContext
  | [], w => .ok w
  | key :: rest, w =>
    match flush_buffer w key.1 key.2 with
    | .error e => .error e
    | .ok w1 => flush_all_go rest w1

/-- `WriterContext::flush_all`. -/
def flush_all (w : WriterContext) : Except String WriterContext :=
  flush_all_go (w.open_files.map Prod.fst) w

/-- What teardown does with a flush failure. -/
inductive DropOutcome
  | panicked (msg : String)
  | logged (msg : String)
  | clean
deriving DecidableEq, Repr

/-- The error handling of `impl Drop for WriterContext`, as a function of
the build configuration (`cfg(debug_assertions)`) and of the result of
`self.flush_all()`: a failure panics in debug builds and is logged with
`eprintln!` otherwise. -/
def drop_outcome (debug_assertions : Bool) (flush_result : Except String Unit) : DropOutcome :=
  match flush_result with
  | .error e => if debug_assertions then .panicked e else .logged e
  | .ok _ => .clean

/-- `impl Drop for WriterContext`: run `flush_all` and handle its result. -/
def drop_writer (debug_assertions : Bool) (w : WriterContext) : WriterContext × DropOutcome :=
  match flush_all w with
  | .ok w1 => (w1, drop_outcome debug_assertions (.ok ()))
  | .error e => (w, drop_outcome debug_assertions (.error e))

/-! ## Parser delimiter flag (`src/fec/parser.rs`) -/

/-- The successive values `parse_fec` assigns to `ctx.use_ascii28`: the
header assignment `ctx.use_ascii28 = info_header` (line 42) followed by
the per-line assignment `ctx.use_ascii28 = info_line` (line 58) executed
for every subsequent line; entry `i+1` is the flag value in effect when
line `i` of `rest` is handed to `parse_line`. -/
def use_ascii28_values (header : List Nat) (rest : List (List Nat)) : List Bool :=
  (collect_line_info header).ascii28 :: rest.map fun l => (collect_line_info l).ascii28

/-! ## Operation traces over the writer -/

/-- The public writer operations, for stating reachability invariants. -/
inductive WriterOp
  | wstring (filename extension : String) (s : List Nat)
  | wchar (filename extension : String) (c : Char)
  | wbytes (filename extension : String) (data : List Nat)
  | wrecord (filename : String) (fields : List (List Nat))
  | flushBuffer (filename extension : String)
  | flushAll
  | endLine (types : String)
  | startLocal
  | finishLocal

/-- Apply one operation. -/
def applyOp (fuel : Nat) (w : WriterContext) : WriterOp → Option (Except String WriterContext)
  | .wstring f e s => write_string fuel w f e s
  | .wchar f e c => write_char fuel w f e c
  | .wbytes f e d => write_bytes fuel w f e d
  | .wrecord f fs => write_csv_record fuel w f fs
  | .flushBuffer f e => some (flush_buffer w f e)
  | .flushAll => some (flush_all w)
  | .endLine t => some (.ok (end_line w t))
  | .startLocal => some (.ok (start_local_buffer_mode w))
  | .finishLocal => some (.ok (finish_local_buffer_mode w).2)

/-- Apply a list of operations, stopping at the first error or
exhausted fuel. -/
def applyOps (fuel : Nat) : WriterContext → List WriterOp → Option (Except String WriterContext)
  | w, [] => some (.ok w)
  | w, op :: rest =>
    match applyOp fuel w op with
    | some (.ok w1) => applyOps fuel w1 rest
    | r => r

/-- The text-producing operations (`write_string` / `write_char` /
`write_csv_record`), the ones with a local-capture branch. -/
def WriterOp.isWrite : WriterOp → Bool
  | .wstring _ _ _ => true
  | .wchar _ _ _ => true
  | .wrecord _ _ => true
  | _ => false

/-- The text a write operation contributes in local-capture mode. -/
def WriterOp.localText : WriterOp → List Nat
  | .wstring _ _ s => s
  | .wchar _ _ c => charBytes c
  | .wrecord _ fs => csvSerializeRecord fs
  | _ => []

/-- The effect of a write operation in local-capture mode: only the
capture buffer (and its position) change. -/
def localApply (w : WriterContext) (op : WriterOp) : WriterContext :=
  { w with local_buffer := w.local_buffer ++ op.localText,
           local_buffer_pos := w.local_buffer_pos + op.localText.length }

/-! ## Single-stream states, for the byte-delivery theorem -/

/-- All payload bytes delivered to the byte-sink callback, in order. -/
def sinkBytes (w : WriterContext) : List Nat := (w.sink.map fun c => c.2.2).flatten

/-- A writer used only on the single stream `(f, e)`, byte-sink callback
installed, disk writing off: either untouched, or holding exactly the
one entry with buffered bytes `buf`. -/
def SingleStream (f e : String) (cap : Nat) (buf : List Nat) (w : WriterContext) : Prop :=
  w.write_to_disk = false ∧ w.buffer_size = cap ∧ w.local_mode = false ∧
  w.has_write_fn = true ∧ buf.length ≤ cap ∧
  ((w.open_files = [] ∧ w.last_file_key = none ∧ buf = []) ∨
   (w.open_files = [((f, e), ⟨⟨buf, buf.length, cap⟩, none⟩)] ∧
    (w.last_file_key = none ∨ w.last_file_key = some (f, e))))

/-- A single-stream writer whose entry exists and is cached. -/
def EntryStream (f e : String) (cap : Nat) (buf : List Nat) (w : WriterContext) : Prop :=
  w.write_to_disk = false ∧ w.buffer_size = cap ∧ w.local_mode = false ∧
  w.has_write_fn = true ∧ buf.length ≤ cap ∧
  w.open_files = [((f, e), ⟨⟨buf, buf.length, cap⟩, none⟩)] ∧
  w.last_file_key = some (f, e)

/-- The writer of the spec's buffering-boundary scenario: buffer
capacity 3, byte-sink callback installed, no disk writing. -/
def scenarioWriter : WriterContext := WriterContext.new "" "" false 3 true false

/-- The scenario's writes: `"hi"`, `" there!"`, `"\n"`. -/
def scenarioWrites : List (List Nat) :=
  [[104, 105], [32, 116, 104, 101, 114, 101, 33], [10]]

/-- The scenario state after the first `k` writes. -/
def scenarioAfter (k : Nat) : Option (Except String WriterContext) :=
  applyOps 64 scenarioWriter ((scenarioWrites.take k).map fun d => WriterOp.wbytes "test" ".txt" d)

/-- Extract the context from a successful result (defaulting arbitrarily,
used only where success is also asserted). -/
def resultState (r : Option (Except String WriterContext)) : WriterContext :=
  match r with
  | some (.ok w) => w
  | _ => WriterContext.new "" "" false 0 false false

/-- The configuration and local-capture fields the stream machinery
(entry lookup/creation, buffering, flushing) never touches. -/
def CorePreserved (w w1 : WriterContext) : Prop :=
  w1.output_directory = w.output_directory ∧ w1.filing_id = w.filing_id ∧
  w1.write_to_disk = w.write_to_disk ∧ w1.buffer_size = w.buffer_size ∧
  w1.local_mode = w.local_mode ∧ w1.local_buffer = w.local_buffer ∧
  w1.local_buffer_pos = w.local_buffer_pos ∧ w1.has_line_fn = w.has_line_fn ∧
  w1.has_write_fn = w.has_write_fn

/-- The most-recently-used-key cache invariant of C10: whenever
`last_file_key` caches a key, that key is present in `open_files`. -/
def MapInv (w : WriterContext) : Prop :=
  ∀ k, w.last_file_key = some k → (findEntry w.open_files k).isSome = true

/-- The local-capture invariant: outside local mode the capture buffer
is empty. -/
def LocalInv (w : WriterContext) : Prop :=
  w.local_mode = false → w.local_buffer = []

/-- The entry `get_file_entry` creates for a previously-unseen key. -/
def freshEntry (w : WriterContext) : FileEntry :=
  FileEntry.new w.buffer_size (if w.write_to_disk then some () else none)

/-- Store `fe` at `(f, e)` through the mutable-entry borrow. -/
def withEntry (w : WriterContext) (f e : String) (fe : FileEntry) : WriterContext :=
  { w with open_files := updateEntry w.open_files (f, e) fe }

/-! ## Facts about the Hoehrmann transition table -/

theorem utf8d_eq_fun : ∀ i < 400, utf8d i = utf8dFun i := by decide

theorem utf8dFun_le : ∀ i < 256, utf8dFun i ≤ 11 := by decide

theorem utf8step_eq_fun {s b : Nat} (hs : s < 9) (hb : b < 256) :
    utf8step s b = utf8stepFun s b := by
  have h1 : utf8d b = utf8dFun b := utf8d_eq_fun b (by omega)
  have h2 : utf8dFun b ≤ 11 := utf8dFun_le b hb
  unfold utf8step utf8stepFun
  rw [h1]
  exact utf8d_eq_fun _ (by omega)

theorem utf8step_ascii : ∀ b < 128, utf8step 0 b = 0 := by
  have h : ∀ b < 128, utf8stepFun 0 b = 0 := by decide
  intro b hb
  rw [utf8step_eq_fun (by omega) (by omega)]
  exact h b hb

theorem utf8step_bad_start : ∀ b < 256, 0x80 ≤ b → b ≤ 0xc1 → utf8step 0 b = 1 := by
  have h : ∀ b < 256, 0x80 ≤ b → b ≤ 0xc1 → utf8stepFun 0 b = 1 := by decide
  intro b hb h1 h2
  rw [utf8step_eq_fun (by omega) hb]
  exact h b hb h1 h2

theorem utf8step_lead2 : ∀ b < 256, 0xc2 ≤ b → b ≤ 0xdf → utf8step 0 b = 2 := by
  have h : ∀ b < 256, 0xc2 ≤ b → b ≤ 0xdf → utf8stepFun 0 b = 2 := by decide
  intro b hb h1 h2
  rw [utf8step_eq_fun (by omega) hb]
  exact h b hb h1 h2

theorem utf8step_e0 : utf8step 0 0xe0 = 4 := by
  rw [utf8step_eq_fun (by omega) (by omega)]
  decide

theorem utf8step_lead3 : ∀ b < 256, 0xe1 ≤ b → b ≤ 0xef → b ≠ 0xed → utf8step 0 b = 3 := by
  have h : ∀ b < 256, 0xe1 ≤ b → b ≤ 0xef → b ≠ 0xed → utf8stepFun 0 b = 3 := by decide
  intro b hb h1 h2 h3
  rw [utf8step_eq_fun (by omega) hb]
  exact h b hb h1 h2 h3

theorem utf8step_ed : utf8step 0 0xed = 5 := by
  rw [utf8step_eq_fun (by omega) (by omega)]
  decide

theorem utf8step_f0 : utf8step 0 0xf0 = 6 := by
  rw [utf8step_eq_fun (by omega) (by omega)]
  decide

theorem utf8step_lead4 : ∀ b < 256, 0xf1 ≤ b → b ≤ 0xf3 → utf8step 0 b = 7 := by
  have h : ∀ b < 256, 0xf1 ≤ b → b ≤ 0xf3 → utf8stepFun 0 b = 7 := by decide
  intro b hb h1 h2
  rw [utf8step_eq_fun (by omega) hb]
  exact h b hb h1 h2

theorem utf8step_f4 : utf8step 0 0xf4 = 8 := by
  rw [utf8step_eq_fun (by omega) (by omega)]
  decide

theorem utf8step_bad_big : ∀ b < 256, 0xf5 ≤ b → utf8step 0 b = 1 := by
  have h : ∀ b < 256, 0xf5 ≤ b → utf8stepFun 0 b = 1 := by decide
  intro b hb h1
  rw [utf8step_eq_fun (by omega) hb]
  exact h b hb h1

theorem utf8step_s2 : ∀ c < 256, utf8step 2 c = if 0x80 ≤ c ∧ c ≤ 0xbf then 0 else 1 := by
  have h : ∀ c < 256, utf8stepFun 2 c = if 0x80 ≤ c ∧ c ≤ 0xbf then 0 else 1 := by decide
  intro c hc
  rw [utf8step_eq_fun (by omega) hc]
  exact h c hc

theorem utf8step_s3 : ∀ c < 256, utf8step 3 c = if 0x80 ≤ c ∧ c ≤ 0xbf then 2 else 1 := by
  have h : ∀ c < 256, utf8stepFun 3 c = if 0x80 ≤ c ∧ c ≤ 0xbf then 2 else 1 := by decide
  intro c hc
  rw [utf8step_eq_fun (by omega) hc]
  exact h c hc

theorem utf8step_s4 : ∀ c < 256, utf8step 4 c = if 0xa0 ≤ c ∧ c ≤ 0xbf then 2 else 1 := by
  have h : ∀ c < 256, utf8stepFun 4 c = if 0xa0 ≤ c ∧ c ≤ 0xbf then 2 else 1 := by decide
  intro c hc
  rw [utf8step_eq_fun (by omega) hc]
  exact h c hc

theorem utf8step_s5 : ∀ c < 256, utf8step 5 c = if 0x80 ≤ c ∧ c ≤ 0x9f then 2 else 1 := by
  have h : ∀ c < 256, utf8stepFun 5 c = if 0x80 ≤ c ∧ c ≤ 0x9f then 2 else 1 := by decide
  intro c hc
  rw [utf8step_eq_fun (by omega) hc]
  exact h c hc

theorem utf8step_s6 : ∀ c < 256, utf8step 6 c = if 0x90 ≤ c ∧ c ≤ 0xbf then 3 else 1 := by
  have h : ∀ c < 256, utf8stepFun 6 c = if 0x90 ≤ c ∧ c ≤ 0xbf then 3 else 1 := by decide
  intro c hc
  rw [utf8step_eq_fun (by omega) hc]
  exact h c hc

theorem utf8step_s7 : ∀ c < 256, utf8step 7 c = if 0x80 ≤ c ∧ c ≤ 0xbf then 3 else 1 := by
  have h : ∀ c < 256, utf8stepFun 7 c = if 0x80 ≤ c ∧ c ≤ 0xbf then 3 else 1 := by decide
  intro c hc
  rw [utf8step_eq_fun (by omega) hc]
  exact h c hc

theorem utf8step_s8 : ∀ c < 256, utf8step 8 c = if 0x80 ≤ c ∧ c ≤ 0x8f then 3 else 1 := by
  have h : ∀ c < 256, utf8stepFun 8 c = if 0x80 ≤ c ∧ c ≤ 0x8f then 3 else 1 := by decide
  intro c hc
  rw [utf8step_eq_fun (by omega) hc]
  exact h c hc

theorem utf8step_reject_sticky : ∀ b < 256, utf8step 1 b = 1 := by
  have h : ∀ b < 256, utf8stepFun 1 b = 1 := by decide
  intro b hb
  rw [utf8step_eq_fun (by omega) hb]
  exact h b hb

theorem utf8step_le_eight : ∀ s < 9, ∀ b < 256, utf8step s b ≤ 8 := by
  have h : ∀ s < 9, ∀ b < 256, utf8stepFun s b ≤ 8 := by decide
  intro s hs b hb
  rw [utf8step_eq_fun hs hb]
  exact h s hs b hb

theorem utf8run_nil (s : Nat) : utf8run s [] = s := rfl

theorem utf8run_cons (s b : Nat) (r : List Nat) :
    utf8run s (b :: r) = utf8run (utf8step s b) r := rfl

theorem utf8run_reject : ∀ r, (∀ b ∈ r, b < 256) → utf8run 1 r = 1 := by
  intro r
  induction r with
  | nil => intro _; rfl
  | cons b t ih =>
    intro hb
    rw [utf8run_cons, utf8step_reject_sticky b (hb b (List.mem_cons_self b t))]
    exact ih fun x hx => hb x (List.mem_cons_of_mem _ hx)

/-! ## The scanner accepts exactly the valid UTF-8 sequences -/

/-! ## Unfolding equations of the UTF-8 validator -/

theorem validUtf8_nil : validUtf8 [] = true := rfl

theorem validFrom_pending_nil (p : Nat × Nat) (ps : ContRanges) :
    validFrom (p :: ps) [] = false := rfl

theorem validFrom_cont (lo hi : Nat) (ps : ContRanges) (c : Nat) (rest : List Nat) :
    validFrom ((lo, hi) :: ps) (c :: rest) = ((lo ≤ c && c ≤ hi) && validFrom ps rest) := rfl

theorem validUtf8_cons (b : Nat) (rest : List Nat) :
    validUtf8 (b :: rest) =
      (if b ≤ 0x7f then validUtf8 rest
      else if b < 0xc2 then false
      else if b ≤ 0xdf then validFrom [(0x80, 0xbf)] rest
      else if b ≤ 0xef then
        validFrom [((if b = 0xe0 then 0xa0 else 0x80), (if b = 0xed then 0x9f else 0xbf)),
          (0x80, 0xbf)] rest
      else if b ≤ 0xf4 then
        validFrom [((if b = 0xf0 then 0x90 else 0x80), (if b = 0xf4 then 0x8f else 0xbf)),
          (0x80, 0xbf), (0x80, 0xbf)] rest
      else false) := rfl

theorem valid_accept_aux :
    ∀ n data, data.length ≤ n → (∀ b ∈ data, b < 256) →
      validUtf8 data = true → utf8run 0 data = 0 := by
  intro n
  induction n with
  | zero =>
    intro data hlen _ _
    match data with
    | [] => rfl
    | b :: rest => simp at hlen
  | succ n ih =>
    intro data hlen hbytes hv
    match data with
    | [] => rfl
    | b :: rest =>
      have hb : b < 256 := hbytes b (List.mem_cons_self b rest)
      have hrest : ∀ x ∈ rest, x < 256 := fun x hx => hbytes x (List.mem_cons_of_mem _ hx)
      have hlen1 : rest.length ≤ n := by simp only [List.length_cons] at hlen; omega
      rw [validUtf8_cons] at hv
      by_cases h1 : b ≤ 0x7f
      · rw [if_pos h1] at hv
        rw [utf8run_cons, utf8step_ascii b (by omega)]
        exact ih rest hlen1 hrest hv
      · rw [if_neg h1] at hv
        by_cases h2 : b < 0xc2
        · rw [if_pos h2] at hv
          exact absurd hv (by simp)
        · rw [if_neg h2] at hv
          by_cases h3 : b ≤ 0xdf
          · rw [if_pos h3] at hv
            cases rest with
            | nil => rw [validFrom_pending_nil] at hv; exact absurd hv (by simp)
            | cons c r =>
              rw [validFrom_cont] at hv
              simp only [Bool.and_eq_true, decide_eq_true_eq] at hv
              obtain ⟨⟨hclo, hchi⟩, hvr⟩ := hv
              have hc : c < 256 := hrest c (List.mem_cons_self c r)
              rw [utf8run_cons, utf8step_lead2 b hb (by omega) h3,
                utf8run_cons, utf8step_s2 c hc, if_pos ⟨hclo, hchi⟩]
              exact ih r (by simp only [List.length_cons] at hlen1; omega)
                (fun x hx => hrest x (List.mem_cons_of_mem _ hx)) hvr
          · rw [if_neg h3] at hv
            by_cases h4 : b ≤ 0xef
            · rw [if_pos h4] at hv
              cases rest with
              | nil => rw [validFrom_pending_nil] at hv; exact absurd hv (by simp)
              | cons c r0 =>
                rw [validFrom_cont] at hv
                simp only [Bool.and_eq_true, decide_eq_true_eq] at hv
                obtain ⟨⟨hclo, hchi⟩, hv2⟩ := hv
                cases r0 with
                | nil => rw [validFrom_pending_nil] at hv2; exact absurd hv2 (by simp)
                | cons d r =>
                  rw [validFrom_cont] at hv2
                  simp only [Bool.and_eq_true, decide_eq_true_eq] at hv2
                  obtain ⟨⟨hdlo, hdhi⟩, hvr⟩ := hv2
                  have hc : c < 256 := hrest c (List.mem_cons_self c (d :: r))
                  have hd : d < 256 := hrest d (List.mem_cons_of_mem _ (List.mem_cons_self d r))
                  have hrr : ∀ x ∈ r, x < 256 := fun x hx =>
                    hrest x (List.mem_cons_of_mem _ (List.mem_cons_of_mem _ hx))
                  have hrl : r.length ≤ n := by
                    simp only [List.length_cons] at hlen1; omega
                  by_cases he0 : b = 0xe0
                  · rw [he0] at hclo hchi ⊢
                    simp only [if_pos rfl] at hclo
                    rw [if_neg (by decide)] at hchi
                    rw [utf8run_cons, utf8step_e0,
                      utf8run_cons, utf8step_s4 c hc, if_pos ⟨hclo, hchi⟩,
                      utf8run_cons, utf8step_s2 d hd, if_pos ⟨hdlo, hdhi⟩]
                    exact ih r hrl hrr hvr
                  · by_cases hed : b = 0xed
                    · rw [hed] at hclo hchi ⊢
                      rw [if_neg (by decide)] at hclo
                      simp only [if_pos rfl] at hchi
                      rw [utf8run_cons, utf8step_ed,
                        utf8run_cons, utf8step_s5 c hc, if_pos ⟨hclo, hchi⟩,
                        utf8run_cons, utf8step_s2 d hd, if_pos ⟨hdlo, hdhi⟩]
                      exact ih r hrl hrr hvr
                    · rw [if_neg he0] at hclo
                      rw [if_neg hed] at hchi
                      rw [utf8run_cons, utf8step_lead3 b hb (by omega) h4 hed,
                        utf8run_cons, utf8step_s3 c hc, if_pos ⟨hclo, hchi⟩,
                        utf8run_cons, utf8step_s2 d hd, if_pos ⟨hdlo, hdhi⟩]
                      exact ih r hrl hrr hvr
            · rw [if_neg h4] at hv
              by_cases h5 : b ≤ 0xf4
              · rw [if_pos h5] at hv
                cases rest with
                | nil => rw [validFrom_pending_nil] at hv; exact absurd hv (by simp)
                | cons c r0 =>
                  rw [validFrom_cont] at hv
                  simp only [Bool.and_eq_true, decide_eq_true_eq] at hv
                  obtain ⟨⟨hclo, hchi⟩, hv2⟩ := hv
                  cases r0 with
                  | nil => rw [validFrom_pending_nil] at hv2; exact absurd hv2 (by simp)
                  | cons d r1 =>
                    rw [validFrom_cont] at hv2
                    simp only [Bool.and_eq_true, decide_eq_true_eq] at hv2
                    obtain ⟨⟨hdlo, hdhi⟩, hv3⟩ := hv2
                    cases r1 with
                    | nil => rw [validFrom_pending_nil] at hv3; exact absurd hv3 (by simp)
                    | cons e r =>
                      rw [validFrom_cont] at hv3
                      simp only [Bool.and_eq_true, decide_eq_true_eq] at hv3
                      obtain ⟨⟨helo, hehi⟩, hvr⟩ := hv3
                      have hc : c < 256 := hrest c (List.mem_cons_self c (d :: e :: r))
                      have hd : d < 256 := hrest d
                        (List.mem_cons_of_mem _ (List.mem_cons_self d (e :: r)))
                      have he : e < 256 := hrest e
                        (List.mem_cons_of_mem _ (List.mem_cons_of_mem _ (List.mem_cons_self e r)))
                      have hrr : ∀ x ∈ r, x < 256 := fun x hx =>
                        hrest x (List.mem_cons_of_mem _
                          (List.mem_cons_of_mem _ (List.mem_cons_of_mem _ hx)))
                      have hrl : r.length ≤ n := by
                        simp only [List.length_cons] at hlen1; omega
                      by_cases hf0 : b = 0xf0
                      · rw [hf0] at hclo hchi ⊢
                        simp only [if_pos rfl] at hclo
                        rw [if_neg (by decide)] at hchi
                        rw [utf8run_cons, utf8step_f0,
                          utf8run_cons, utf8step_s6 c hc, if_pos ⟨hclo, hchi⟩,
                          utf8run_cons, utf8step_s3 d hd, if_pos ⟨hdlo, hdhi⟩,
                          utf8run_cons, utf8step_s2 e he, if_pos ⟨helo, hehi⟩]
                        exact ih r hrl hrr hvr
                      · by_cases hf4 : b = 0xf4
                        · rw [hf4] at hclo hchi ⊢
                          rw [if_neg (by decide)] at hclo
                          simp only [if_pos rfl] at hchi
                          rw [utf8run_cons, utf8step_f4,
                            utf8run_cons, utf8step_s8 c hc, if_pos ⟨hclo, hchi⟩,
                            utf8run_cons, utf8step_s3 d hd, if_pos ⟨hdlo, hdhi⟩,
                            utf8run_cons, utf8step_s2 e he, if_pos ⟨helo, hehi⟩]
                          exact ih r hrl hrr hvr
                        · rw [if_neg hf0] at hclo
                          rw [if_neg hf4] at hchi
                          rw [utf8run_cons, utf8step_lead4 b hb (by omega) (by omega),
                            utf8run_cons, utf8step_s7 c hc, if_pos ⟨hclo, hchi⟩,
                            utf8run_cons, utf8step_s3 d hd, if_pos ⟨hdlo, hdhi⟩,
                            utf8run_cons, utf8step_s2 e he, if_pos ⟨helo, hehi⟩]
                          exact ih r hrl hrr hvr
              · rw [if_neg h5] at hv
                exact absurd hv (by simp)

theorem valid_accept (data : List Nat) (hbytes : ∀ b ∈ data, b < 256)
    (hv : validUtf8 data = true) : utf8run 0 data = 0 :=
  valid_accept_aux data.length data le_rfl hbytes hv

theorem accept_valid_aux :
    ∀ n data, data.length ≤ n → (∀ b ∈ data, b < 256) →
      utf8run 0 data = 0 → validUtf8 data = true := by
  intro n
  induction n with
  | zero =>
    intro data hlen _ _
    match data with
    | [] => rfl
    | b :: rest => simp at hlen
  | succ n ih =>
    intro data hlen hbytes hrun
    match data with
    | [] => rfl
    | b :: rest =>
      have hb : b < 256 := hbytes b (List.mem_cons_self b rest)
      have hrest : ∀ x ∈ rest, x < 256 := fun x hx => hbytes x (List.mem_cons_of_mem _ hx)
      have hlen1 : rest.length ≤ n := by simp only [List.length_cons] at hlen; omega
      rw [utf8run_cons] at hrun
      rw [validUtf8_cons]
      by_cases h1 : b ≤ 0x7f
      · rw [utf8step_ascii b (by omega)] at hrun
        rw [if_pos h1]
        exact ih rest hlen1 hrest hrun
      · rw [if_neg h1]
        by_cases h2 : b < 0xc2
        · rw [utf8step_bad_start b hb (by omega) (by omega), utf8run_reject rest hrest] at hrun
          exact absurd hrun (by decide)
        · rw [if_neg h2]
          by_cases h3 : b ≤ 0xdf
          · rw [if_pos h3]
            rw [utf8step_lead2 b hb (by omega) h3] at hrun
            cases rest with
            | nil => rw [utf8run_nil] at hrun; exact absurd hrun (by decide)
            | cons c r =>
              have hc : c < 256 := hrest c (List.mem_cons_self c r)
              have hrr : ∀ x ∈ r, x < 256 := fun x hx => hrest x (List.mem_cons_of_mem _ hx)
              rw [utf8run_cons, utf8step_s2 c hc] at hrun
              by_cases hcont : 0x80 ≤ c ∧ c ≤ 0xbf
              · rw [if_pos hcont] at hrun
                rw [validFrom_cont]
                simp only [Bool.and_eq_true, decide_eq_true_eq]
                exact ⟨⟨hcont.1, hcont.2⟩,
                  ih r (by simp only [List.length_cons] at hlen1; omega) hrr hrun⟩
              · rw [if_neg hcont, utf8run_reject r hrr] at hrun
                exact absurd hrun (by decide)
          · rw [if_neg h3]
            by_cases h4 : b ≤ 0xef
            · rw [if_pos h4]
              have hstep1 : utf8step 0 b = 4 ∨ utf8step 0 b = 5 ∨ utf8step 0 b = 3 := by
                by_cases he0 : b = 0xe0
                · rw [he0, utf8step_e0]; exact Or.inl rfl
                · by_cases hed : b = 0xed
                  · rw [hed, utf8step_ed]; exact Or.inr (Or.inl rfl)
                  · rw [utf8step_lead3 b hb (by omega) h4 hed]; exact Or.inr (Or.inr rfl)
              have hstep2 : ∀ c, c < 256 → utf8step (utf8step 0 b) c =
                  if (if b = 0xe0 then 0xa0 else 0x80) ≤ c ∧
                      c ≤ (if b = 0xed then 0x9f else 0xbf) then 2 else 1 := by
                intro c hc
                by_cases he0 : b = 0xe0
                · rw [he0, utf8step_e0, utf8step_s4 c hc]
                  norm_num
                · by_cases hed : b = 0xed
                  · rw [hed, utf8step_ed, utf8step_s5 c hc]
                    norm_num
                  · rw [utf8step_lead3 b hb (by omega) h4 hed, utf8step_s3 c hc,
                      if_neg he0, if_neg hed]
              cases rest with
              | nil =>
                rw [utf8run_nil] at hrun
                rcases hstep1 with h | h | h <;> rw [h] at hrun <;> exact absurd hrun (by decide)
              | cons c r0 =>
                have hc : c < 256 := hrest c (List.mem_cons_self c r0)
                have hr0 : ∀ x ∈ r0, x < 256 := fun x hx => hrest x (List.mem_cons_of_mem _ hx)
                rw [utf8run_cons, hstep2 c hc] at hrun
                by_cases hcont : (if b = 0xe0 then 0xa0 else 0x80) ≤ c ∧
                    c ≤ (if b = 0xed then 0x9f else 0xbf)
                · rw [if_pos hcont] at hrun
                  cases r0 with
                  | nil => rw [utf8run_nil] at hrun; exact absurd hrun (by decide)
                  | cons d r =>
                    have hd : d < 256 := hr0 d (List.mem_cons_self d r)
                    have hrr : ∀ x ∈ r, x < 256 := fun x hx => hr0 x (List.mem_cons_of_mem _ hx)
                    rw [utf8run_cons, utf8step_s2 d hd] at hrun
                    by_cases hdont : 0x80 ≤ d ∧ d ≤ 0xbf
                    · rw [if_pos hdont] at hrun
                      rw [validFrom_cont, validFrom_cont]
                      simp only [Bool.and_eq_true, decide_eq_true_eq]
                      refine ⟨⟨hcont.1, hcont.2⟩, ⟨hdont.1, hdont.2⟩, ?_⟩
                      have hrl : r.length ≤ n := by
                        simp only [List.length_cons] at hlen1; omega
                      exact ih r hrl hrr hrun
                    · rw [if_neg hdont, utf8run_reject r hrr] at hrun
                      exact absurd hrun (by decide)
                · rw [if_neg hcont, utf8run_reject r0 hr0] at hrun
                  exact absurd hrun (by decide)
            · rw [if_neg h4]
              by_cases h5 : b ≤ 0xf4
              · rw [if_pos h5]
                have hstep1 : utf8step 0 b = 6 ∨ utf8step 0 b = 8 ∨ utf8step 0 b = 7 := by
                  by_cases hf0 : b = 0xf0
                  · rw [hf0, utf8step_f0]; exact Or.inl rfl
                  · by_cases hf4 : b = 0xf4
                    · rw [hf4, utf8step_f4]; exact Or.inr (Or.inl rfl)
                    · rw [utf8step_lead4 b hb (by omega) (by omega)]; exact Or.inr (Or.inr rfl)
                have hstep2 : ∀ c, c < 256 → utf8step (utf8step 0 b) c =
                    if (if b = 0xf0 then 0x90 else 0x80) ≤ c ∧
                        c ≤ (if b = 0xf4 then 0x8f else 0xbf) then 3 else 1 := by
                  intro c hc
                  by_cases hf0 : b = 0xf0
                  · rw [hf0, utf8step_f0, utf8step_s6 c hc]
                    norm_num
                  · by_cases hf4 : b = 0xf4
                    · rw [hf4, utf8step_f4, utf8step_s8 c hc]
                      norm_num
                    · rw [utf8step_lead4 b hb (by omega) (by omega), utf8step_s7 c hc,
                        if_neg hf0, if_neg hf4]
                cases rest with
                | nil =>
                  rw [utf8run_nil] at hrun
                  rcases hstep1 with h | h | h <;> rw [h] at hrun <;>
                    exact absurd hrun (by decide)
                | cons c r0 =>
                  have hc : c < 256 := hrest c (List.mem_cons_self c r0)
                  have hr0 : ∀ x ∈ r0, x < 256 := fun x hx =>
                    hrest x (List.mem_cons_of_mem _ hx)
                  rw [utf8run_cons, hstep2 c hc] at hrun
                  by_cases hcont : (if b = 0xf0 then 0x90 else 0x80) ≤ c ∧
                      c ≤ (if b = 0xf4 then 0x8f else 0xbf)
                  · rw [if_pos hcont] at hrun
                    cases r0 with
                    | nil => rw [utf8run_nil] at hrun; exact absurd hrun (by decide)
                    | cons d r1 =>
                      have hd : d < 256 := hr0 d (List.mem_cons_self d r1)
                      have hr1 : ∀ x ∈ r1, x < 256 := fun x hx =>
                        hr0 x (List.mem_cons_of_mem _ hx)
                      rw [utf8run_cons, utf8step_s3 d hd] at hrun
                      by_cases hdont : 0x80 ≤ d ∧ d ≤ 0xbf
                      · rw [if_pos hdont] at hrun
                        cases r1 with
                        | nil => rw [utf8run_nil] at hrun; exact absurd hrun (by decide)
                        | cons e r =>
                          have he : e < 256 := hr1 e (List.mem_cons_self e r)
                          have hrr : ∀ x ∈ r, x < 256 := fun x hx =>
                            hr1 x (List.mem_cons_of_mem _ hx)
                          rw [utf8run_cons, utf8step_s2 e he] at hrun
                          by_cases heont : 0x80 ≤ e ∧ e ≤ 0xbf
                          · rw [if_pos heont] at hrun
                            rw [validFrom_cont, validFrom_cont, validFrom_cont]
                            simp only [Bool.and_eq_true, decide_eq_true_eq]
                            refine ⟨⟨hcont.1, hcont.2⟩, ⟨hdont.1, hdont.2⟩,
                              ⟨heont.1, heont.2⟩, ?_⟩
                            have hrl : r.length ≤ n := by
                              simp only [List.length_cons] at hlen1; omega
                            exact ih r hrl hrr hrun
                          · rw [if_neg heont, utf8run_reject r hrr] at hrun
                            exact absurd hrun (by decide)
                      · rw [if_neg hdont, utf8run_reject r1 hr1] at hrun
                        exact absurd hrun (by decide)
                  · rw [if_neg hcont, utf8run_reject r0 hr0] at hrun
                    exact absurd hrun (by decide)
              · rw [utf8step_bad_big b hb (by omega), utf8run_reject rest hrest] at hrun
                exact absurd hrun (by decide)

theorem accept_valid (data : List Nat) (hbytes : ∀ b ∈ data, b < 256)
    (hrun : utf8run 0 data = 0) : validUtf8 data = true :=
  accept_valid_aux data.length data le_rfl hbytes hrun

/-! ## The `valid_utf8` flag of `collect_line_info` -/

theorem scanOk_nil (s : Nat) : scanOk s [] = true := rfl

theorem scanOk_cons (s b : Nat) (r : List Nat) :
    scanOk s (b :: r) = if utf8step s b = UTF8_REJECT then false
      else scanOk (utf8step s b) r := rfl

theorem scanOk_of_accept :
    ∀ data s, (∀ b ∈ data, b < 256) → s ≤ 8 → utf8run s data = 0 →
      scanOk s data = true := by
  intro data
  induction data with
  | nil => intro s _ _ _; rfl
  | cons b r ih =>
    intro s hbytes hs hrun
    have hb : b < 256 := hbytes b (List.mem_cons_self b r)
    have hr : ∀ x ∈ r, x < 256 := fun x hx => hbytes x (List.mem_cons_of_mem _ hx)
    rw [utf8run_cons] at hrun
    rw [scanOk_cons]
    by_cases h1 : utf8step s b = UTF8_REJECT
    · rw [show UTF8_REJECT = 1 from rfl] at h1
      rw [h1, utf8run_reject r hr] at hrun
      exact absurd hrun (by decide)
    · rw [if_neg h1]
      have hle : utf8step s b ≤ 8 := utf8step_le_eight s (by omega) b hb
      exact ih (utf8step s b) hr hle hrun

theorem lineStep_snd (p : LineInfo × Nat) (b : Nat) : (lineStep p b).2 = utf8step p.2 b := rfl

theorem lineStep_fst_valid (p : LineInfo × Nat) (b : Nat) :
    (lineStep p b).1.valid_utf8 =
      if utf8step p.2 b = UTF8_REJECT then false else p.1.valid_utf8 := by
  simp only [lineStep]
  split <;> split <;> split <;> rfl

theorem foldl_lineStep_valid :
    ∀ data (i : LineInfo) (s : Nat),
      (data.foldl lineStep (i, s)).1.valid_utf8 = (i.valid_utf8 && scanOk s data) := by
  intro data
  induction data with
  | nil => intro i s; simp [scanOk_nil]
  | cons b r ih =>
    intro i s
    rcases hL : lineStep (i, s) b with ⟨i1, s1⟩
    rw [List.foldl_cons, hL, ih]
    have hs1 : s1 = utf8step s b := by rw [← lineStep_snd (i, s) b, hL]
    have hi1 : i1.valid_utf8 = if utf8step s b = UTF8_REJECT then false else i.valid_utf8 := by
      rw [← lineStep_fst_valid (i, s) b, hL]
    rw [hi1, hs1, scanOk_cons]
    by_cases h : utf8step s b = UTF8_REJECT
    · simp [h]
    · simp [h]

theorem collect_valid_eq_scanOk (data : List Nat) :
    (collect_line_info data).valid_utf8 = scanOk 0 data := by
  unfold collect_line_info
  rw [show (UTF8_ACCEPT : Nat) = 0 from rfl, foldl_lineStep_valid data LineInfo.init 0]
  simp [LineInfo.init]

theorem collect_valid_of_accept (data : List Nat) (hbytes : ∀ b ∈ data, b < 256)
    (hrun : utf8run 0 data = 0) : (collect_line_info data).valid_utf8 = true := by
  rw [collect_valid_eq_scanOk]
  exact scanOk_of_accept data 0 hbytes (by omega) hrun

/-! ## The fallback conversion always produces valid UTF-8 -/

theorem expand_trail_bounds :
    ∀ b < 256, 128 ≤ b → 0x80 ≤ (b &&& 0x3f) + 0x80 ∧ (b &&& 0x3f) + 0x80 ≤ 0xbf := by
  decide

theorem iso_valid :
    ∀ data, (∀ b ∈ data, b < 256) → validUtf8 (iso_8859_1_to_utf8 data) = true := by
  intro data
  induction data with
  | nil => intro _; rfl
  | cons b r ih =>
    intro hbytes
    have hb : b < 256 := hbytes b (List.mem_cons_self b r)
    have hr : ∀ x ∈ r, x < 256 := fun x hx => hbytes x (List.mem_cons_of_mem _ hx)
    rw [iso_8859_1_to_utf8]
    by_cases h1 : b < 128
    · rw [if_pos h1, validUtf8_cons, if_pos (by omega : b ≤ 0x7f)]
      exact ih hr
    · rw [if_neg h1]
      obtain ⟨hlo, hhi⟩ := expand_trail_bounds b hb (by omega)
      by_cases h2 : b > 0xbf
      · rw [if_pos h2, validUtf8_cons]
        rw [if_neg (by omega), if_neg (by omega), if_pos (by omega), validFrom_cont]
        simp only [Bool.and_eq_true, decide_eq_true_eq]
        exact ⟨⟨hlo, hhi⟩, ih hr⟩
      · rw [if_neg h2, validUtf8_cons]
        rw [if_neg (by omega), if_neg (by omega), if_pos (by omega), validFrom_cont]
        simp only [Bool.and_eq_true, decide_eq_true_eq]
        exact ⟨⟨hlo, hhi⟩, ih hr⟩

theorem iso_eq_expand :
    ∀ data, iso_8859_1_to_utf8 data = data.flatMap expandByte := by
  intro data
  induction data with
  | nil => rfl
  | cons b r ih =>
    rw [iso_8859_1_to_utf8, List.flatMap_cons, expandByte]
    by_cases h1 : b < 128
    · rw [if_pos h1, if_pos h1, ih]
      rfl
    · rw [if_neg h1, if_neg h1, ih]
      rfl

/-! ## Evaluations of `decode_line` -/

theorem decode_line_of_flag_false (data : List Nat) (hbytes : ∀ b ∈ data, b < 256)
    (hflag : (collect_line_info data).valid_utf8 = false) :
    decode_line data = some (iso_8859_1_to_utf8 data, (collect_line_info data).ascii28) := by
  simp [decode_line, from_utf8, hflag, iso_valid data hbytes]

theorem decode_line_of_valid (data : List Nat)
    (hflag : (collect_line_info data).valid_utf8 = true)
    (hv : validUtf8 data = true) :
    decode_line data = some (data, (collect_line_info data).ascii28) := by
  simp [decode_line, from_utf8, hflag, hv]

theorem decode_line_of_flag_true_invalid (data : List Nat) (hbytes : ∀ b ∈ data, b < 256)
    (hflag : (collect_line_info data).valid_utf8 = true)
    (hv : validUtf8 data = false) :
    decode_line data = some (iso_8859_1_to_utf8 data, (collect_line_info data).ascii28) := by
  simp [decode_line, from_utf8, hflag, hv, iso_valid data hbytes]

/-! ## Claims about the encoding normalizer -/

/-- C1: for every byte sequence, `decode_line` never panics (the
`.unwrap()` calls are unreachable) and never returns an error, and the
text it returns re-validates as UTF-8; this holds for inputs of any
length, including the empty one. -/
theorem c1_decode_line_total_valid_utf8 (data : List Nat)
    (hbytes : ∀ b ∈ data, b < 256) :
    ∃ text flag, decode_line data = some (text, flag) ∧ validUtf8 text = true := by
  cases hflag : (collect_line_info data).valid_utf8 with
  | false =>
    exact ⟨_, _, decode_line_of_flag_false data hbytes hflag, iso_valid data hbytes⟩
  | true =>
    cases hv : validUtf8 data with
    | true => exact ⟨_, _, decode_line_of_valid data hflag hv, hv⟩
    | false =>
      exact ⟨_, _, decode_line_of_flag_true_invalid data hbytes hflag hv,
        iso_valid data hbytes⟩

/-- Witness for C1 at the concrete input `[0xE9]`. -/
theorem c1_witness :
    ∃ text flag, decode_line [0xe9] = some (text, flag) ∧ validUtf8 text = true :=
  c1_decode_line_total_valid_utf8 [0xe9] (by decide)

/-- C4, counterexample: on the input `[0xC3]` (a truncated two-byte
sequence) the automaton never enters the reject state — the `valid_utf8`
flag stays `true` — yet the input is not valid UTF-8 and `decode_line`
does not return it verbatim: it re-encodes it through the fallback. -/
theorem c4_counterexample :
    (collect_line_info [0xc3]).valid_utf8 = true ∧
    validUtf8 [0xc3] = false ∧
    decode_line [0xc3] = some ([0xc3, 0x83], false) ∧
    ([0xc3, 0x83] : List Nat) ≠ [0xc3] := by
  refine ⟨by decide, by decide, ?_, by decide⟩
  decide

/-- C4, amended: for every input on which the automaton never enters the
reject state AND finishes the scan in the accept state, the input is
valid UTF-8 and `decode_line` returns it verbatim.  (Never entering
reject alone is not sufficient: a truncated trailing sequence leaves the
automaton in a middle state without rejecting, see `c4_counterexample`.) -/
theorem c4_amended_scan_accept_identity (data : List Nat)
    (hbytes : ∀ b ∈ data, b < 256)
    (hflag : (collect_line_info data).valid_utf8 = true)
    (hrun : utf8run UTF8_ACCEPT data = UTF8_ACCEPT) :
    validUtf8 data = true ∧
    decode_line data = some (data, (collect_line_info data).ascii28) := by
  have hv : validUtf8 data = true :=
    accept_valid data hbytes (by exact hrun)
  exact ⟨hv, decode_line_of_valid data hflag hv⟩

/-- Witness for the amended C4 at the concrete input `[0xC3, 0xA9]`. -/
theorem c4_witness :
    validUtf8 [0xc3, 0xa9] = true ∧
    decode_line [0xc3, 0xa9] = some ([0xc3, 0xa9], false) := by
  have h := c4_amended_scan_accept_identity [0xc3, 0xa9] (by decide) (by decide) (by decide)
  exact ⟨h.1, h.2.trans (by decide)⟩

/-- Per-singleton facts of the fallback rule, by exhaustive evaluation. -/
theorem c5_fallback_singleton : ∀ b < 256,
    (b < 128 → iso_8859_1_to_utf8 [b] = [b]) ∧
    (128 ≤ b → iso_8859_1_to_utf8 [b] =
      [0xc2 + (if b > 0xbf then 1 else 0), (b &&& 0x3f) + 0x80]) ∧
    validUtf8 (iso_8859_1_to_utf8 [b]) = true ∧
    (0xc0 ≤ b → validUtf8 [b] = false ∧
      decode_line [b] = some (iso_8859_1_to_utf8 [b], false)) := by
  decide

/-- C5: the fallback maps each byte `< 128` to itself and each byte
`≥ 128` to the two bytes `0xC2 + (b > 0xBF)` and `(b & 0x3F) | 0x80`
(the whole output is the concatenation of the per-byte expansions); the
expansion of every one of the 256 byte values — and of every byte
sequence — is valid UTF-8; and every singleton byte in `0xC0..0xFF` is
not valid UTF-8 on its own and is decoded by `decode_line` to exactly
its two-byte expansion (e.g. `0xE9` alone yields the UTF-8 encoding of
`U+00E9`). -/
theorem c5_fallback_expansion (b : Nat) (hb : b < 256)
    (data : List Nat) (hdata : ∀ x ∈ data, x < 256) :
    (b < 128 → iso_8859_1_to_utf8 [b] = [b]) ∧
    (128 ≤ b → iso_8859_1_to_utf8 [b] =
      [0xc2 + (if b > 0xbf then 1 else 0), (b &&& 0x3f) + 0x80]) ∧
    validUtf8 (iso_8859_1_to_utf8 [b]) = true ∧
    (0xc0 ≤ b → validUtf8 [b] = false ∧
      decode_line [b] = some (iso_8859_1_to_utf8 [b], false)) ∧
    iso_8859_1_to_utf8 data = data.flatMap expandByte ∧
    validUtf8 (iso_8859_1_to_utf8 data) = true := by
  obtain ⟨h1, h2, h3, h4⟩ := c5_fallback_singleton b hb
  exact ⟨h1, h2, h3, h4, iso_eq_expand data, iso_valid data hdata⟩

/-- Witness for C5 at `b = 0xE9`: the singleton `0xE9` decodes to the
two-byte UTF-8 encoding of `U+00E9`. -/
theorem c5_witness : decode_line [0xe9] = some ([0xc3, 0xa9], false) := by
  have h := (c5_fallback_expansion 0xe9 (by decide) [] (by decide)).2.2.2.1 (by decide)
  exact h.2.trans (by decide)

/-- C6: decoding is idempotent on valid UTF-8: for every valid-UTF-8
byte sequence `x`, `decode_line x` succeeds returning some pair `p`, and
decoding the returned text gives the same result (`p.1` is `x` itself,
so the second decode is literally the same computation). -/
theorem c6_decode_idempotent (x : List Nat) (hbytes : ∀ b ∈ x, b < 256)
    (hv : validUtf8 x = true) :
    ∃ p, decode_line x = some p ∧ decode_line p.1 = decode_line x := by
  have hrun : utf8run 0 x = 0 := valid_accept x hbytes hv
  have hflag : (collect_line_info x).valid_utf8 = true :=
    collect_valid_of_accept x hbytes hrun
  exact ⟨(x, (collect_line_info x).ascii28), decode_line_of_valid x hflag hv, rfl⟩

/-- Witness for C6 at the concrete valid input `[0xC3, 0xA9]`. -/
theorem c6_witness :
    ∃ p, decode_line [0xc3, 0xa9] = some p ∧
      decode_line p.1 = decode_line [0xc3, 0xa9] :=
  c6_decode_idempotent [0xc3, 0xa9] (by decide) (by decide)

/-! ## Association-list map lemmas -/

theorem findEntry_append :
    ∀ (m l : List (StreamKey × FileEntry)) (k : StreamKey),
      findEntry (m ++ l) k =
        (match findEntry m k with
         | some fe => some fe
         | none => findEntry l k) := by
  intro m
  induction m with
  | nil => intro l k; rfl
  | cons p m ih =>
    intro l k
    rcases p with ⟨k0, fe0⟩
    rw [List.cons_append, findEntry, findEntry]
    by_cases h : k0 = k
    · rw [if_pos h, if_pos h]
    · rw [if_neg h, if_neg h, ih]

theorem findEntry_updateEntry_isSome :
    ∀ (m : List (StreamKey × FileEntry)) (k key : StreamKey) (fe : FileEntry),
      (findEntry (updateEntry m key fe) k).isSome = (findEntry m k).isSome := by
  intro m
  induction m with
  | nil => intro k key fe; rfl
  | cons p m ih =>
    intro k key fe
    rcases p with ⟨k0, fe0⟩
    rw [updateEntry]
    by_cases h : k0 = key
    · rw [if_pos h, findEntry, findEntry]
      by_cases h2 : k0 = k
      · rw [if_pos h2, if_pos h2]; rfl
      · rw [if_neg h2, if_neg h2]
    · rw [if_neg h, findEntry, findEntry]
      by_cases h2 : k0 = k
      · rw [if_pos h2, if_pos h2]
      · rw [if_neg h2, if_neg h2, ih]

theorem core_refl (w : WriterContext) : CorePreserved w w :=
  ⟨rfl, rfl, rfl, rfl, rfl, rfl, rfl, rfl, rfl⟩

theorem core_trans {w w1 w2 : WriterContext}
    (h1 : CorePreserved w w1) (h2 : CorePreserved w1 w2) : CorePreserved w w2 := by
  obtain ⟨a1, b1, c1, d1, e1, f1, g1, i1, j1⟩ := h1
  obtain ⟨a2, b2, c2, d2, e2, f2, g2, i2, j2⟩ := h2
  exact ⟨a2.trans a1, b2.trans b1, c2.trans c1, d2.trans d1, e2.trans e1,
    f2.trans f1, g2.trans g1, i2.trans i1, j2.trans j1⟩

/-! ## Specification of `get_file_entry` -/

theorem get_file_entry_full_spec (w : WriterContext) (f e : String) :
    ∃ w1 fe isNew, get_file_entry_full w f e = .ok (w1, fe, isNew) ∧
      MapInv w1 ∧ CorePreserved w w1 ∧
      w1.sink = w.sink ∧ w1.file_writes = w.file_writes ∧
      w1.custom_line_buffer = w.custom_line_buffer ∧ w1.line_calls = w.line_calls ∧
      w1.last_file_key = some (f, e) ∧
      (findEntry w1.open_files (f, e)).isSome = true ∧
      (∀ k, (findEntry w.open_files k).isSome = true →
        (findEntry w1.open_files k).isSome = true) := by
  cases hfind : findEntry w.open_files (f, e) with
  | some fe =>
    have hgoal : get_file_entry_full w f e =
        .ok ({ w with last_file_key := some (f, e) }, fe, false) := by
      simp only [get_file_entry_full, hfind]
    refine ⟨_, fe, false, hgoal, ?_, ⟨rfl, rfl, rfl, rfl, rfl, rfl, rfl, rfl, rfl⟩,
      rfl, rfl, rfl, rfl, rfl, ?_, ?_⟩
    · intro k hk
      simp only [Option.some.injEq] at hk
      subst hk
      rw [hfind]
      rfl
    · rw [hfind]; rfl
    · intro k hk; exact hk
  | none =>
    set entry := FileEntry.new w.buffer_size (if w.write_to_disk then some () else none)
      with hentry
    have hself : findEntry (w.open_files ++ [((f, e), entry)]) (f, e) = some entry := by
      rw [findEntry_append, hfind]
      rw [findEntry, if_pos rfl]
    have hgoal : get_file_entry_full w f e =
        .ok ({ w with open_files := w.open_files ++ [((f, e), entry)],
                      last_file_key := some (f, e) }, entry, true) := by
      simp only [get_file_entry_full, ← hentry, hfind, hself]
    refine ⟨_, _, true, hgoal, ?_, ⟨rfl, rfl, rfl, rfl, rfl, rfl, rfl, rfl, rfl⟩,
      rfl, rfl, rfl, rfl, rfl, ?_, ?_⟩
    · intro k hk
      simp only [Option.some.injEq] at hk
      subst hk
      rw [hself]
      rfl
    · rw [hself]; rfl
    · intro k hk
      rw [findEntry_append]
      cases hfk : findEntry w.open_files k with
      | some fe2 => rfl
      | none => rw [hfk] at hk; exact absurd hk (by simp)

theorem get_file_entry_spec (w : WriterContext) (f e : String) (hinv : MapInv w) :
    ∃ w1 fe isNew, get_file_entry w f e = .ok (w1, fe, isNew) ∧
      MapInv w1 ∧ CorePreserved w w1 ∧
      w1.sink = w.sink ∧ w1.file_writes = w.file_writes ∧
      w1.custom_line_buffer = w.custom_line_buffer ∧ w1.line_calls = w.line_calls ∧
      w1.last_file_key = some (f, e) ∧
      (findEntry w1.open_files (f, e)).isSome = true ∧
      (∀ k, (findEntry w.open_files k).isSome = true →
        (findEntry w1.open_files k).isSome = true) := by
  cases hlk : w.last_file_key with
  | none =>
    have hred : get_file_entry w f e = get_file_entry_full w f e := by
      simp only [get_file_entry, hlk]
    obtain ⟨w1, fe, isNew, heq, rest⟩ := get_file_entry_full_spec w f e
    exact ⟨w1, fe, isNew, hred.trans heq, rest⟩
  | some key =>
    by_cases hmatch : key.1 = f ∧ key.2 = e
    · have hkey : key = (f, e) := Prod.ext hmatch.1 hmatch.2
      subst hkey
      have hsome := hinv (f, e) hlk
      cases hfind : findEntry w.open_files (f, e) with
      | none => rw [hfind] at hsome; exact absurd hsome (by simp)
      | some fe =>
        have hred : get_file_entry w f e = .ok (w, fe, false) := by
          simp [get_file_entry, hlk, hfind]
        exact ⟨w, fe, false, hred, hinv, core_refl w, rfl, rfl, rfl, rfl, hlk,
          by rw [hfind]; rfl, fun k hk => hk⟩
    · have hred : get_file_entry w f e = get_file_entry_full w f e := by
        simp only [get_file_entry, hlk, if_neg hmatch]
      obtain ⟨w1, fe, isNew, heq, rest⟩ := get_file_entry_full_spec w f e
      exact ⟨w1, fe, isNew, hred.trans heq, rest⟩

/-! ## Specification of `flush_buffer` and the write loop -/

theorem flush_buffer_spec (w : WriterContext) (f e : String) (hinv : MapInv w) :
    ∃ w1, flush_buffer w f e = .ok w1 ∧ MapInv w1 ∧ CorePreserved w w1 ∧
      w1.custom_line_buffer = w.custom_line_buffer ∧ w1.line_calls = w.line_calls ∧
      (∀ k, (findEntry w.open_files k).isSome = true →
        (findEntry w1.open_files k).isSome = true) := by
  obtain ⟨w1, fe, isNew, hget, hinv1, hcore, hsink, hfw, hclb, hlc, hlast, hself, hmono⟩ :=
    get_file_entry_spec w f e hinv
  by_cases hempty : fe.buffer_file.is_empty = true
  · have hred : flush_buffer w f e = .ok w1 := by
      simp only [flush_buffer, hget]
      rw [if_pos hempty]
    exact ⟨w1, hred, hinv1, hcore, hclb, hlc, hmono⟩
  · set entry' : FileEntry := { fe with buffer_file := fe.buffer_file.clear } with hentry
    have hfinish : ∀ w4 : WriterContext, flush_buffer w f e = .ok w4 →
        w4.open_files = updateEntry w1.open_files (f, e) entry' →
        w4.last_file_key = w1.last_file_key →
        w4.custom_line_buffer = w1.custom_line_buffer →
        w4.line_calls = w1.line_calls →
        CorePreserved w1 w4 →
        ∃ wr, flush_buffer w f e = .ok wr ∧ MapInv wr ∧ CorePreserved w wr ∧
          wr.custom_line_buffer = w.custom_line_buffer ∧ wr.line_calls = w.line_calls ∧
          (∀ k, (findEntry w.open_files k).isSome = true →
            (findEntry wr.open_files k).isSome = true) := by
      intro w4 hred hof hlk4 hclb4 hlc4 hcore4
      refine ⟨w4, hred, ?_, core_trans hcore hcore4, hclb4.trans hclb, hlc4.trans hlc, ?_⟩
      · intro k hk
        rw [hlk4, hlast] at hk
        simp only [Option.some.injEq] at hk
        subst hk
        rw [hof, findEntry_updateEntry_isSome]
        exact hself
      · intro k hk
        rw [hof, findEntry_updateEntry_isSome]
        exact hmono k hk
    by_cases hwf : w1.has_write_fn = true
    · cases hfile : fe.file with
      | some u =>
        refine hfinish
          { w1 with open_files := updateEntry w1.open_files (f, e) entry',
                    sink := w1.sink ++ [(f, e, fe.buffer_file.buffer)],
                    file_writes := w1.file_writes ++ [((f, e), fe.buffer_file.buffer)] }
          ?_ rfl rfl rfl rfl ⟨rfl, rfl, rfl, rfl, rfl, rfl, rfl, rfl, rfl⟩
        simp only [flush_buffer, hget]
        rw [if_neg hempty]
        rw [if_pos hwf]
        simp only [hfile]
        rw [hentry, hfile]
      | none =>
        refine hfinish
          { w1 with open_files := updateEntry w1.open_files (f, e) entry',
                    sink := w1.sink ++ [(f, e, fe.buffer_file.buffer)] }
          ?_ rfl rfl rfl rfl ⟨rfl, rfl, rfl, rfl, rfl, rfl, rfl, rfl, rfl⟩
        simp only [flush_buffer, hget]
        rw [if_neg hempty]
        rw [if_pos hwf]
        simp only [hfile]
        rw [hentry, hfile]
    · cases hfile : fe.file with
      | some u =>
        refine hfinish
          { w1 with open_files := updateEntry w1.open_files (f, e) entry',
                    file_writes := w1.file_writes ++ [((f, e), fe.buffer_file.buffer)] }
          ?_ rfl rfl rfl rfl ⟨rfl, rfl, rfl, rfl, rfl, rfl, rfl, rfl, rfl⟩
        simp only [flush_buffer, hget]
        rw [if_neg hempty]
        rw [if_neg hwf]
        simp only [hfile]
        rw [hentry, hfile]
      | none =>
        refine hfinish
          { w1 with open_files := updateEntry w1.open_files (f, e) entry' }
          ?_ rfl rfl rfl rfl ⟨rfl, rfl, rfl, rfl, rfl, rfl, rfl, rfl, rfl⟩
        simp only [flush_buffer, hget]
        rw [if_neg hempty]
        rw [if_neg hwf]
        simp only [hfile]
        rw [hentry, hfile]

theorem write_bytes_loop_spec (f e : String) :
    ∀ fuel ov w, MapInv w →
      write_bytes_loop f e fuel w ov = none ∨
      ∃ w1, write_bytes_loop f e fuel w ov = some (.ok w1) ∧ MapInv w1 ∧
        CorePreserved w w1 ∧ w1.custom_line_buffer = w.custom_line_buffer ∧
        w1.line_calls = w.line_calls ∧
        (∀ k, (findEntry w.open_files k).isSome = true →
          (findEntry w1.open_files k).isSome = true) := by
  intro fuel
  induction fuel with
  | zero =>
    intro ov w hinv
    cases ov with
    | nil => exact Or.inr ⟨w, rfl, hinv, core_refl w, rfl, rfl, fun k hk => hk⟩
    | cons a l => exact Or.inl rfl
  | succ n ih =>
    intro ov w hinv
    cases ov with
    | nil => exact Or.inr ⟨w, rfl, hinv, core_refl w, rfl, rfl, fun k hk => hk⟩
    | cons a l =>
      obtain ⟨w1, fe, isNew, hget, hinv1, hcore1, hsink, hfw, hclb, hlc, hlast, hself, hmono⟩ :=
        get_file_entry_spec w f e hinv
      rcases hwr : fe.buffer_file.write_bytes (a :: l) with ⟨bf1, leftover⟩
      set fe2 : FileEntry := { fe with buffer_file := bf1 } with hfe2
      set w2 : WriterContext := { w1 with open_files := updateEntry w1.open_files (f, e) fe2 } with hw2
      have hinv2 : MapInv w2 := by
        intro k hk
        have hk1 : w1.last_file_key = some k := hk
        rw [hlast] at hk1
        simp only [Option.some.injEq] at hk1
        subst hk1
        show (findEntry (updateEntry w1.open_files (f, e) _) (f, e)).isSome = true
        rw [findEntry_updateEntry_isSome]
        exact hself
      have hmono2 : ∀ k, (findEntry w.open_files k).isSome = true →
          (findEntry w2.open_files k).isSome = true := by
        intro k hk
        show (findEntry (updateEntry w1.open_files (f, e) _) k).isSome = true
        rw [findEntry_updateEntry_isSome]
        exact hmono k hk
      have hcore2 : CorePreserved w w2 :=
        core_trans hcore1 ⟨rfl, rfl, rfl, rfl, rfl, rfl, rfl, rfl, rfl⟩
      have hred : write_bytes_loop f e (n + 1) w (a :: l) =
          (if leftover.isEmpty then some (.ok w2)
           else match flush_buffer w2 f e with
            | .error err => some (.error err)
            | .ok w3 => write_bytes_loop f e n w3 leftover) := by
        rw [write_bytes_loop]
        · simp only [hget, hwr, hw2, hfe2]
        · simp
      by_cases hleft : leftover.isEmpty = true
      · rw [hred, if_pos hleft]
        exact Or.inr ⟨w2, rfl, hinv2, hcore2, hclb, hlc, hmono2⟩
      · rw [hred, if_neg hleft]
        obtain ⟨w3, hfl, hinv3, hcore3, hclb3, hlc3, hmono3⟩ := flush_buffer_spec w2 f e hinv2
        rw [hfl]
        rcases ih leftover w3 hinv3 with hnone | ⟨w4, heq, hinv4, hcore4, hclb4, hlc4, hmono4⟩
        · exact Or.inl hnone
        · exact Or.inr ⟨w4, heq, hinv4, core_trans hcore2 (core_trans hcore3 hcore4),
            hclb4.trans (hclb3.trans hclb), hlc4.trans (hlc3.trans hlc),
            fun k hk => hmono4 k (hmono3 k (hmono2 k hk))⟩

/-! ## Preservation of the invariants by every public operation -/

theorem flush_all_go_spec :
    ∀ keys (w : WriterContext), MapInv w →
      ∃ w1, flush_all_go keys w = .ok w1 ∧ MapInv w1 ∧ CorePreserved w w1 ∧
        w1.custom_line_buffer = w.custom_line_buffer ∧ w1.line_calls = w.line_calls ∧
        (∀ k, (findEntry w.open_files k).isSome = true →
          (findEntry w1.open_files k).isSome = true) := by
  intro keys
  induction keys with
  | nil =>
    intro w hinv
    exact ⟨w, rfl, hinv, core_refl w, rfl, rfl, fun k hk => hk⟩
  | cons key ks ih =>
    intro w hinv
    obtain ⟨w1, hfl, hinv1, hcore1, hclb1, hlc1, hmono1⟩ := flush_buffer_spec w key.1 key.2 hinv
    obtain ⟨w2, hgo, hinv2, hcore2, hclb2, hlc2, hmono2⟩ := ih w1 hinv1
    have hred : flush_all_go (key :: ks) w = flush_all_go ks w1 := by
      rw [flush_all_go, hfl]
    exact ⟨w2, hred.trans hgo, hinv2, core_trans hcore1 hcore2,
      hclb2.trans hclb1, hlc2.trans hlc1, fun k hk => hmono2 k (hmono1 k hk)⟩

theorem flush_all_spec (w : WriterContext) (hinv : MapInv w) :
    ∃ w1, flush_all w = .ok w1 ∧ MapInv w1 ∧ CorePreserved w w1 ∧
      w1.custom_line_buffer = w.custom_line_buffer ∧ w1.line_calls = w.line_calls ∧
      (∀ k, (findEntry w.open_files k).isSome = true →
        (findEntry w1.open_files k).isSome = true) :=
  flush_all_go_spec (w.open_files.map Prod.fst) w hinv

theorem write_char_eq_string (fuel : Nat) (w : WriterContext) (f e : String) (c : Char) :
    write_char fuel w f e c = write_string fuel w f e (charBytes c) := rfl

theorem write_string_preserve (fuel : Nat) (w : WriterContext) (f e : String)
    (s : List Nat) (w1 : WriterContext) (hinv : MapInv w)
    (h : write_string fuel w f e s = some (.ok w1)) :
    MapInv w1 ∧
    (∀ k, (findEntry w.open_files k).isSome = true →
      (findEntry w1.open_files k).isSome = true) ∧
    (LocalInv w → LocalInv w1) := by
  by_cases hl : w.local_mode = true
  · rw [write_string, if_pos hl] at h
    simp only [Option.some.injEq, Except.ok.injEq] at h
    subst h
    refine ⟨fun k hk => hinv k hk, fun k hk => hk, fun _ => ?_⟩
    intro hm
    simp only at hm
    rw [hl] at hm
    exact absurd hm (by simp)
  · rw [write_string, if_neg hl] at h
    cases hwb : write_bytes fuel w f e s with
    | none => rw [hwb] at h; exact absurd h (by simp)
    | some r =>
      cases r with
      | error msg => rw [hwb] at h; exact absurd h (by simp)
      | ok w2 =>
        rw [hwb] at h
        simp only [Option.some.injEq, Except.ok.injEq] at h
        rcases write_bytes_loop_spec f e fuel s w hinv with hnone |
          ⟨w2x, heq, hinv2, hcore2, hclb2, hlc2, hmono2⟩
        · rw [show write_bytes fuel w f e s = write_bytes_loop f e fuel w s from rfl, hnone]
            at hwb
          exact absurd hwb (by simp)
        · rw [show write_bytes fuel w f e s = write_bytes_loop f e fuel w s from rfl, heq]
            at hwb
          simp only [Option.some.injEq, Except.ok.injEq] at hwb
          subst hwb
          subst h
          by_cases hlf : w2x.has_line_fn = true
          · rw [if_pos hlf]
            refine ⟨fun k hk => hinv2 k hk, fun k hk => hmono2 k hk, fun hLI => ?_⟩
            intro hm
            simp only at hm ⊢
            rw [hcore2.2.2.2.2.1] at hm
            rw [hcore2.2.2.2.2.2.1]
            exact hLI hm
          · rw [if_neg hlf]
            refine ⟨hinv2, hmono2, fun hLI => ?_⟩
            intro hm
            rw [hcore2.2.2.2.2.1] at hm
            rw [hcore2.2.2.2.2.2.1]
            exact hLI hm

theorem write_csv_record_preserve (fuel : Nat) (w : WriterContext) (f : String)
    (fields : List (List Nat)) (w1 : WriterContext) (hinv : MapInv w)
    (h : write_csv_record fuel w f fields = some (.ok w1)) :
    MapInv w1 ∧
    (∀ k, (findEntry w.open_files k).isSome = true →
      (findEntry w1.open_files k).isSome = true) ∧
    (LocalInv w → LocalInv w1) := by
  by_cases hl : w.local_mode = true
  · rw [write_csv_record] at h
    rw [if_pos hl] at h
    simp only [Option.some.injEq, Except.ok.injEq] at h
    subst h
    refine ⟨fun k hk => hinv k hk, fun k hk => hk, fun _ => ?_⟩
    intro hm
    simp only at hm
    rw [hl] at hm
    exact absurd hm (by simp)
  · rw [write_csv_record] at h
    rw [if_neg hl] at h
    rcases write_bytes_loop_spec f "csv" fuel (csvSerializeRecord fields) w hinv with hnone |
      ⟨w2x, heq, hinv2, hcore2, hclb2, hlc2, hmono2⟩
    · rw [show write_bytes fuel w f "csv" (csvSerializeRecord fields) =
          write_bytes_loop f "csv" fuel w (csvSerializeRecord fields) from rfl, hnone] at h
      exact absurd h (by simp)
    · rw [show write_bytes fuel w f "csv" (csvSerializeRecord fields) =
          write_bytes_loop f "csv" fuel w (csvSerializeRecord fields) from rfl, heq] at h
      simp only [Option.some.injEq, Except.ok.injEq] at h
      subst h
      refine ⟨hinv2, hmono2, fun hLI => ?_⟩
      intro hm
      rw [hcore2.2.2.2.2.1] at hm
      rw [hcore2.2.2.2.2.2.1]
      exact hLI hm

theorem applyOp_preserve (fuel : Nat) (w : WriterContext) (op : WriterOp)
    (w1 : WriterContext) (hinv : MapInv w) (h : applyOp fuel w op = some (.ok w1)) :
    MapInv w1 ∧
    (∀ k, (findEntry w.open_files k).isSome = true →
      (findEntry w1.open_files k).isSome = true) ∧
    (LocalInv w → LocalInv w1) := by
  cases op with
  | wstring f e s => exact write_string_preserve fuel w f e s w1 hinv h
  | wchar f e c =>
    rw [applyOp, write_char_eq_string] at h
    exact write_string_preserve fuel w f e (charBytes c) w1 hinv h
  | wrecord f fs => exact write_csv_record_preserve fuel w f fs w1 hinv h
  | wbytes f e d =>
    rcases write_bytes_loop_spec f e fuel d w hinv with hnone |
      ⟨w2x, heq, hinv2, hcore2, hclb2, hlc2, hmono2⟩
    · rw [show applyOp fuel w (WriterOp.wbytes f e d) =
          write_bytes_loop f e fuel w d from rfl, hnone] at h
      exact absurd h (by simp)
    · rw [show applyOp fuel w (WriterOp.wbytes f e d) =
          write_bytes_loop f e fuel w d from rfl, heq] at h
      simp only [Option.some.injEq, Except.ok.injEq] at h
      subst h
      refine ⟨hinv2, hmono2, fun hLI => ?_⟩
      intro hm
      rw [hcore2.2.2.2.2.1] at hm
      rw [hcore2.2.2.2.2.2.1]
      exact hLI hm
  | flushBuffer f e =>
    obtain ⟨w2, hfl, hinv2, hcore2, hclb2, hlc2, hmono2⟩ := flush_buffer_spec w f e hinv
    rw [applyOp, hfl] at h
    simp only [Option.some.injEq, Except.ok.injEq] at h
    subst h
    refine ⟨hinv2, hmono2, fun hLI => ?_⟩
    intro hm
    rw [hcore2.2.2.2.2.1] at hm
    rw [hcore2.2.2.2.2.2.1]
    exact hLI hm
  | flushAll =>
    obtain ⟨w2, hfl, hinv2, hcore2, hclb2, hlc2, hmono2⟩ := flush_all_spec w hinv
    rw [applyOp, hfl] at h
    simp only [Option.some.injEq, Except.ok.injEq] at h
    subst h
    refine ⟨hinv2, hmono2, fun hLI => ?_⟩
    intro hm
    rw [hcore2.2.2.2.2.1] at hm
    rw [hcore2.2.2.2.2.2.1]
    exact hLI hm
  | endLine t =>
    rw [applyOp] at h
    simp only [Option.some.injEq, Except.ok.injEq] at h
    subst h
    by_cases hlf : w.has_line_fn = true
    · refine ⟨?_, ?_, fun hLI => ?_⟩ <;>
        simp only [end_line, if_pos hlf]
      · intro k hk; exact hinv k hk
      · intro k hk; exact hk
      · intro hm; exact hLI hm
    · refine ⟨?_, ?_, fun hLI => ?_⟩ <;>
        simp only [end_line, if_neg hlf]
      · intro k hk; exact hinv k hk
      · intro k hk; exact hk
      · intro hm; exact hLI hm
  | startLocal =>
    rw [applyOp] at h
    simp only [Option.some.injEq, Except.ok.injEq] at h
    subst h
    exact ⟨fun k hk => hinv k hk, fun k hk => hk, fun _ _ => rfl⟩
  | finishLocal =>
    rw [applyOp] at h
    simp only [Option.some.injEq, Except.ok.injEq] at h
    subst h
    exact ⟨fun k hk => hinv k hk, fun k hk => hk, fun _ _ => rfl⟩

theorem applyOps_preserve :
    ∀ (ops : List WriterOp) (fuel : Nat) (w w1 : WriterContext),
      MapInv w → LocalInv w → applyOps fuel w ops = some (.ok w1) →
      MapInv w1 ∧ LocalInv w1 ∧
      (∀ k, (findEntry w.open_files k).isSome = true →
        (findEntry w1.open_files k).isSome = true) := by
  intro ops
  induction ops with
  | nil =>
    intro fuel w w1 hinv hloc h
    simp only [applyOps, Option.some.injEq, Except.ok.injEq] at h
    subst h
    exact ⟨hinv, hloc, fun k hk => hk⟩
  | cons op rest ih =>
    intro fuel w w1 hinv hloc h
    rw [applyOps] at h
    cases hop : applyOp fuel w op with
    | none => rw [hop] at h; exact absurd h (by simp)
    | some r =>
      cases r with
      | error msg => rw [hop] at h; exact absurd h (by simp)
      | ok w2 =>
        rw [hop] at h
        obtain ⟨hinv2, hmono2, hloc2⟩ := applyOp_preserve fuel w op w2 hinv hop
        obtain ⟨hinv1, hloc1, hmono1⟩ := ih fuel w2 w1 hinv2 (hloc2 hloc) h
        exact ⟨hinv1, hloc1, fun k hk => hmono1 k (hmono2 k hk)⟩

/-! ## Local-capture mode -/

theorem applyOp_local (fuel : Nat) (w : WriterContext) (op : WriterOp)
    (hl : w.local_mode = true) (hop : op.isWrite = true) :
    applyOp fuel w op = some (.ok (localApply w op)) := by
  cases op <;> simp only [WriterOp.isWrite] at hop <;>
    try exact Bool.noConfusion hop
  case wstring f e s =>
    rw [applyOp, write_string, if_pos hl]
    rfl
  case wchar f e c =>
    rw [applyOp, write_char_eq_string, write_string, if_pos hl]
    rfl
  case wrecord f fs =>
    rw [applyOp, write_csv_record]
    rw [if_pos hl]
    rfl

theorem applyOps_local :
    ∀ (ops : List WriterOp) (fuel : Nat) (w : WriterContext),
      w.local_mode = true → (∀ op ∈ ops, op.isWrite = true) →
      applyOps fuel w ops = some (.ok { w with
        local_buffer := w.local_buffer ++ (ops.map WriterOp.localText).flatten,
        local_buffer_pos :=
          w.local_buffer_pos + (ops.map WriterOp.localText).flatten.length }) := by
  intro ops
  induction ops with
  | nil =>
    intro fuel w hl hops
    simp [applyOps]
  | cons op rest ih =>
    intro fuel w hl hops
    rw [applyOps, applyOp_local fuel w op hl (hops op (List.mem_cons_self op rest))]
    show applyOps fuel (localApply w op) rest = _
    rw [ih fuel (localApply w op) hl (fun o ho => hops o (List.mem_cons_of_mem _ ho))]
    simp [localApply, List.append_assoc, Nat.add_assoc]

/-- C7: while the writer is in local-capture mode, every write operation
(string, char, record) succeeds and touches only the capture buffer —
the stream map, the byte-sink trace, the file-write trace and the
line-callback trace are all unchanged; a capture session started with
`start_local_buffer_mode` and ended with `finish_local_buffer_mode`
returns exactly the concatenation of all text written in between, again
leaving all stream state untouched; entering local mode while already in
it resets the capture buffer to empty; and finishing local mode in any
reachable non-local state returns the empty string rather than failing. -/
theorem c7_local_capture_isolation (fuel : Nat) (w v : WriterContext) (op : WriterOp)
    (ops : List WriterOp) (od fid : String) (d : Bool) (cap : Nat) (hwf hlf : Bool)
    (fuel2 : Nat) (allOps : List WriterOp) (w2 : WriterContext)
    (hlocal : w.local_mode = true)
    (hop : op.isWrite = true)
    (hops : ∀ o ∈ ops, o.isWrite = true)
    (hreach : applyOps fuel2 (WriterContext.new od fid d cap hwf hlf) allOps =
      some (.ok w2))
    (hnotlocal : w2.local_mode = false) :
    (applyOp fuel w op = some (.ok (localApply w op)) ∧
      (localApply w op).open_files = w.open_files ∧
      (localApply w op).sink = w.sink ∧
      (localApply w op).file_writes = w.file_writes ∧
      (localApply w op).line_calls = w.line_calls ∧
      (localApply w op).local_mode = true ∧
      (localApply w op).local_buffer = w.local_buffer ++ op.localText) ∧
    (∃ w1, applyOps fuel (start_local_buffer_mode v) ops = some (.ok w1) ∧
      (finish_local_buffer_mode w1).1 = (ops.map WriterOp.localText).flatten ∧
      w1.open_files = v.open_files ∧ w1.sink = v.sink ∧
      w1.file_writes = v.file_writes ∧ w1.line_calls = v.line_calls ∧
      (finish_local_buffer_mode w1).2.local_mode = false) ∧
    (start_local_buffer_mode v).local_buffer = [] ∧
    (start_local_buffer_mode v).local_mode = true ∧
    (finish_local_buffer_mode w2).1 = [] := by
  refine ⟨⟨applyOp_local fuel w op hlocal hop, rfl, rfl, rfl, rfl, hlocal, rfl⟩,
    ?_, rfl, rfl, ?_⟩
  · refine ⟨_, applyOps_local ops fuel (start_local_buffer_mode v) rfl hops,
      ?_, rfl, rfl, rfl, rfl, rfl⟩
    rfl
  · have hinit_inv : MapInv (WriterContext.new od fid d cap hwf hlf) := by
      intro k hk
      simp [WriterContext.new] at hk
    have hinit_loc : LocalInv (WriterContext.new od fid d cap hwf hlf) := fun _ => rfl
    obtain ⟨_, hloc2, _⟩ :=
      applyOps_preserve allOps fuel2 _ w2 hinit_inv hinit_loc hreach
    exact hloc2 hnotlocal

/-- Witness for C7: a two-write capture session on a fresh writer
returns exactly the concatenated text and delivers nothing to the sink. -/
theorem c7_witness :
    ∃ w1, applyOps 4 (start_local_buffer_mode (WriterContext.new "" "" false 3 true false))
        [WriterOp.wstring "t" "txt" [104], WriterOp.wstring "t" "txt" [105, 33]] =
        some (.ok w1) ∧
      (finish_local_buffer_mode w1).1 = [104, 105, 33] ∧ w1.sink = [] := by
  have h := c7_local_capture_isolation 4
    (start_local_buffer_mode (WriterContext.new "" "" false 3 true false))
    (start_local_buffer_mode (WriterContext.new "" "" false 3 true false))
    (WriterOp.wstring "t" "txt" [104])
    [WriterOp.wstring "t" "txt" [104], WriterOp.wstring "t" "txt" [105, 33]]
    "" "" false 3 true false 1 [] (WriterContext.new "" "" false 3 true false)
    rfl rfl (by decide) rfl rfl
  obtain ⟨w1, h1, h2, hof, hsink, hfw, hlc, hmode⟩ := h.2.1
  exact ⟨w1, h1, h2.trans (by decide), hsink.trans rfl⟩

/-! ## Zero-capacity buffers -/

theorem c3_zero_cap_loop :
    ∀ fuel, write_bytes_loop "output" "csv" fuel
      { WriterContext.new "" "" false 0 true false with
        open_files := [(("output", "csv"), FileEntry.new 0 none)],
        last_file_key := some ("output", "csv") } [97] = none := by
  intro fuel
  induction fuel with
  | zero => rfl
  | succ n ih =>
    rw [write_bytes_loop]
    · exact ih
    · simp

/-- C3: `WriterContext::new` has no failure path and accepts a
zero-capacity buffer, and a subsequent `write_bytes` of any non-empty
data then never terminates — the flush loop makes no progress (the model
returns `none` for every amount of fuel).  The claim that construction
is rejected at construction time is false on this code. -/
theorem c3_zero_capacity_write_diverges (fuel : Nat) :
    (WriterContext.new "" "" false 0 true false).buffer_size = 0 ∧
    write_bytes fuel (WriterContext.new "" "" false 0 true false) "output" "csv" [97] =
      none := by
  refine ⟨rfl, ?_⟩
  cases fuel with
  | zero => rfl
  | succ n =>
    show write_bytes_loop "output" "csv" (n + 1)
      (WriterContext.new "" "" false 0 true false) [97] = none
    rw [write_bytes_loop]
    · exact c3_zero_cap_loop n
    · simp

/-! ## Parser delimiter flag and teardown -/

/-- C8, failing input: a header containing the ASCII-28 separator sets
the delimiter flag, but the parse loop reassigns `ctx.use_ascii28` from
every subsequent line's own decode — on the next line (plain CSV text
without byte 28) the flag flips to `false` instead of persisting. -/
theorem c8_flag_overwritten_per_line :
    use_ascii28_values [28, 10] [[97, 44, 98, 10]] = [true, false] ∧
    ([true, false] : List Bool) ≠ [true, true] := by
  exact ⟨by decide, by decide⟩

/-- C9, counterexample: in a debug build (`cfg(debug_assertions)`) a
failure of the best-effort teardown flush panics instead of being
logged, contradicting the claim that such a failure is only logged and
never raised. -/
theorem c9_counterexample :
    drop_outcome true (Except.error "boom") = DropOutcome.panicked "boom" ∧
    DropOutcome.panicked "boom" ≠ DropOutcome.logged "boom" := by
  exact ⟨rfl, by simp⟩

/-- C9, amended: on teardown a final flush of all streams is attempted
(`drop` runs `flush_all` and keeps its result when it succeeds), and in
builds without debug assertions a failure of that flush is logged and
never raised; in debug builds the failure panics. -/
theorem c9_teardown_logs_in_release (w : WriterContext) (e : String)
    (r : Except String Unit) :
    drop_writer false w = (match flush_all w with
      | .ok w1 => (w1, DropOutcome.clean)
      | .error msg => (w, DropOutcome.logged msg)) ∧
    drop_outcome false (.error e) = DropOutcome.logged e ∧
    (∀ m, drop_outcome false r ≠ DropOutcome.panicked m) := by
  refine ⟨?_, rfl, ?_⟩
  · rw [drop_writer]
    cases flush_all w with
    | ok w1 => rfl
    | error msg => rfl
  · intro m
    cases r with
    | ok u => simp [drop_outcome]
    | error msg => simp [drop_outcome]

/-- Witness for the amended C9 on a fresh writer and a concrete error. -/
theorem c9_witness :
    drop_writer false (WriterContext.new "" "" false 3 true false) =
      (WriterContext.new "" "" false 3 true false, DropOutcome.clean) ∧
    drop_outcome false (Except.error "boom") = DropOutcome.logged "boom" := by
  have h := c9_teardown_logs_in_release (WriterContext.new "" "" false 3 true false)
    "boom" (Except.ok ())
  exact ⟨h.1.trans (by rfl), h.2.1⟩

/-! ## The most-recently-used-key cache -/

/-- C10: in every reachable writer state the cached `last_file_key`,
when set, names an entry present in `open_files`; no operation ever
removes an entry from the map; consequently the "File entry not found"
error branches of `get_file_entry` are unreachable (it always returns
`ok`), and the cached fast path returns exactly the entry a full map
lookup finds, leaving the state unchanged. -/
theorem c10_last_key_cache_invariant
    (od fid : String) (d : Bool) (cap : Nat) (hwf hlf : Bool)
    (fuel : Nat) (ops : List WriterOp) (w1 : WriterContext)
    (hreach : applyOps fuel (WriterContext.new od fid d cap hwf hlf) ops =
      some (.ok w1)) :
    MapInv w1 ∧
    (∀ op fuel2 w2, applyOp fuel2 w1 op = some (.ok w2) →
      ∀ k, (findEntry w1.open_files k).isSome = true →
        (findEntry w2.open_files k).isSome = true) ∧
    (∀ f e, ∃ w2 fe isNew, get_file_entry w1 f e = .ok (w2, fe, isNew)) ∧
    (∀ f e fe, w1.last_file_key = some (f, e) →
      findEntry w1.open_files (f, e) = some fe →
      get_file_entry w1 f e = .ok (w1, fe, false)) := by
  have hinit_inv : MapInv (WriterContext.new od fid d cap hwf hlf) := by
    intro k hk
    simp [WriterContext.new] at hk
  have hinit_loc : LocalInv (WriterContext.new od fid d cap hwf hlf) := fun _ => rfl
  obtain ⟨hinv1, hloc1, hmono1⟩ :=
    applyOps_preserve ops fuel _ w1 hinit_inv hinit_loc hreach
  refine ⟨hinv1, ?_, ?_, ?_⟩
  · intro op fuel2 w2 hop k hk
    exact (applyOp_preserve fuel2 w1 op w2 hinv1 hop).2.1 k hk
  · intro f e
    obtain ⟨w2, fe, isNew, hget, _⟩ := get_file_entry_spec w1 f e hinv1
    exact ⟨w2, fe, isNew, hget⟩
  · intro f e fe hlast hfind
    simp [get_file_entry, hlast, hfind]

/-- Witness for C10 on the freshly constructed writer (the empty
operation sequence). -/
theorem c10_witness :
    MapInv (WriterContext.new "" "" false 3 true false) ∧
    (∀ op fuel2 w2,
      applyOp fuel2 (WriterContext.new "" "" false 3 true false) op = some (.ok w2) →
      ∀ k, (findEntry (WriterContext.new "" "" false 3 true false).open_files k).isSome =
          true →
        (findEntry w2.open_files k).isSome = true) ∧
    (∀ f e, ∃ w2 fe isNew,
      get_file_entry (WriterContext.new "" "" false 3 true false) f e =
        .ok (w2, fe, isNew)) ∧
    (∀ f e fe,
      (WriterContext.new "" "" false 3 true false).last_file_key = some (f, e) →
      findEntry (WriterContext.new "" "" false 3 true false).open_files (f, e) = some fe →
      get_file_entry (WriterContext.new "" "" false 3 true false) f e =
        .ok (WriterContext.new "" "" false 3 true false, fe, false)) :=
  c10_last_key_cache_invariant "" "" false 3 true false 1 [] _ rfl

/-! ## Single-stream evaluations, for the byte-delivery claim -/

theorem get_file_entry_compute_fresh (w : WriterContext) (f e : String)
    (hof : w.open_files = []) (hlk : w.last_file_key = none) :
    get_file_entry w f e =
      .ok ({ w with open_files := [((f, e), freshEntry w)], last_file_key := some (f, e) },
        freshEntry w, true) := by
  simp [get_file_entry, get_file_entry_full, hlk, hof, findEntry, freshEntry]

theorem get_file_entry_compute_hit (w : WriterContext) (f e : String) (fe : FileEntry)
    (hlk : w.last_file_key = some (f, e))
    (hfind : findEntry w.open_files (f, e) = some fe) :
    get_file_entry w f e = .ok (w, fe, false) := by
  simp [get_file_entry, hlk, hfind]

theorem get_file_entry_compute_slowhit (w : WriterContext) (f e : String) (fe : FileEntry)
    (hlk : w.last_file_key = none)
    (hfind : findEntry w.open_files (f, e) = some fe) :
    get_file_entry w f e = .ok ({ w with last_file_key := some (f, e) }, fe, false) := by
  simp [get_file_entry, get_file_entry_full, hlk, hfind]

theorem updateEntry_singleton (k : StreamKey) (fe fe2 : FileEntry) :
    updateEntry [(k, fe)] k fe2 = [(k, fe2)] := by
  simp [updateEntry]

theorem singleStream_get (f e : String) (cap : Nat) (buf : List Nat) (w : WriterContext)
    (h : SingleStream f e cap buf w) :
    ∃ w1 isNew, get_file_entry w f e =
        .ok (w1, ⟨⟨buf, buf.length, cap⟩, none⟩, isNew) ∧
      EntryStream f e cap buf w1 ∧ w1.sink = w.sink ∧ w1.file_writes = w.file_writes ∧
      w1.custom_line_buffer = w.custom_line_buffer ∧ w1.line_calls = w.line_calls := by
  obtain ⟨hd, hbs, hlm, hwf, hlen, hcase⟩ := h
  rcases hcase with ⟨hof, hlk, hbuf⟩ | ⟨hof, hlk | hlk⟩
  · subst hbuf
    have hfresh : freshEntry w = ⟨⟨([] : List Nat), ([] : List Nat).length, cap⟩, none⟩ := by
      simp [freshEntry, FileEntry.new, BufferFile.new, hd, hbs]
    have hget := get_file_entry_compute_fresh w f e hof hlk
    rw [hfresh] at hget
    exact ⟨_, true, hget, ⟨hd, hbs, hlm, hwf, by simp, rfl, rfl⟩, rfl, rfl, rfl, rfl⟩
  · have hfind : findEntry w.open_files (f, e) = some ⟨⟨buf, buf.length, cap⟩, none⟩ := by
      rw [hof]
      simp [findEntry]
    have hget := get_file_entry_compute_slowhit w f e _ hlk hfind
    exact ⟨_, false, hget, ⟨hd, hbs, hlm, hwf, hlen, hof, rfl⟩, rfl, rfl, rfl, rfl⟩
  · have hfind : findEntry w.open_files (f, e) = some ⟨⟨buf, buf.length, cap⟩, none⟩ := by
      rw [hof]
      simp [findEntry]
    have hget := get_file_entry_compute_hit w f e _ hlk hfind
    exact ⟨_, false, hget, ⟨hd, hbs, hlm, hwf, hlen, hof, hlk⟩, rfl, rfl, rfl, rfl⟩

theorem entryStream_flush (f e : String) (cap : Nat) (buf : List Nat) (w : WriterContext)
    (h : EntryStream f e cap buf w) :
    ∃ w1, flush_buffer w f e = .ok w1 ∧ EntryStream f e cap [] w1 ∧
      w1.sink = w.sink ++ (if buf.isEmpty then [] else [(f, e, buf)]) ∧
      w1.file_writes = w.file_writes ∧
      w1.custom_line_buffer = w.custom_line_buffer ∧ w1.line_calls = w.line_calls := by
  obtain ⟨hd, hbs, hlm, hwf, hlen, hof, hlk⟩ := h
  have hfind : findEntry w.open_files (f, e) = some ⟨⟨buf, buf.length, cap⟩, none⟩ := by
    rw [hof]
    simp [findEntry]
  have hget := get_file_entry_compute_hit w f e _ hlk hfind
  by_cases hne : buf = []
  · subst hne
    have hred : flush_buffer w f e = .ok w := by
      simp [flush_buffer, hget, BufferFile.is_empty]
    exact ⟨w, hred, ⟨hd, hbs, hlm, hwf, by simp, hof, hlk⟩, by simp, rfl, rfl, rfl⟩
  · have hemp : BufferFile.is_empty ⟨buf, buf.length, cap⟩ = false := by
      simp [BufferFile.is_empty, List.length_eq_zero]
      exact hne
    have hred : flush_buffer w f e = .ok ({ w with
        open_files := [((f, e), ⟨⟨[], 0, cap⟩, none⟩)],
        sink := w.sink ++ [(f, e, buf)] }) := by
      simp [flush_buffer, hget, hemp, hwf, BufferFile.clear, hof, updateEntry_singleton]
    refine ⟨_, hred, ⟨hd, hbs, hlm, hwf, by simp, rfl, hlk⟩, ?_, rfl, rfl, rfl⟩
    simp [List.isEmpty_iff, hne]

theorem sinkBytes_append_chunks (w w1 : WriterContext) (chunks : List (List Nat))
    (f e : String) (h : w1.sink = w.sink ++ chunks.map fun c => (f, e, c)) :
    sinkBytes w1 = sinkBytes w ++ chunks.flatten := by
  simp [sinkBytes, h, List.map_map, Function.comp_def]

theorem isEmpty_false_of_len_pos {α : Type} (l : List α) (h : 0 < l.length) :
    l.isEmpty = false := by
  cases l with
  | nil => simp at h
  | cons a m => rfl

theorem singleStream_of_entryStream (f e : String) (cap : Nat) (buf : List Nat)
    (w : WriterContext) (h : EntryStream f e cap buf w) : SingleStream f e cap buf w := by
  obtain ⟨hd, hbs, hlm, hwf, hlen, hof, hlk⟩ := h
  exact ⟨hd, hbs, hlm, hwf, hlen, Or.inr ⟨hof, Or.inr hlk⟩⟩

theorem bufferFile_write_bytes_fit (buf data : List Nat) (cap : Nat)
    (h : data.length ≤ cap - buf.length) :
    BufferFile.write_bytes ⟨buf, buf.length, cap⟩ data =
      (⟨buf ++ data, buf.length + data.length, cap⟩, []) := by
  simp only [BufferFile.write_bytes]
  rw [if_pos h]

theorem bufferFile_write_bytes_overflow (buf data : List Nat) (cap : Nat)
    (h : ¬ data.length ≤ cap - buf.length) :
    BufferFile.write_bytes ⟨buf, buf.length, cap⟩ data =
      (⟨buf ++ data.take (cap - buf.length), buf.length + (cap - buf.length), cap⟩,
       data.drop (cap - buf.length)) := by
  simp only [BufferFile.write_bytes]
  rw [if_neg h]

theorem single_stream_loop (f e : String) (cap : Nat) (hcap : 1 ≤ cap) :
    ∀ (fuel : Nat) (ov buf : List Nat) (w : WriterContext), SingleStream f e cap buf w →
      2 * ov.length + 1 + (if buf.length = cap then 1 else 0) ≤ fuel →
      ∃ (w1 : WriterContext) (buf1 : List Nat) (chunks : List (List Nat)),
        write_bytes_loop f e fuel w ov = some (.ok w1) ∧
        SingleStream f e cap buf1 w1 ∧
        w1.sink = w.sink ++ chunks.map (fun c => (f, e, c)) ∧
        chunks.flatten ++ buf1 = buf ++ ov ∧
        (∀ c ∈ chunks, c.length ≤ cap) ∧
        w1.file_writes = w.file_writes ∧
        w1.custom_line_buffer = w.custom_line_buffer ∧
        w1.line_calls = w.line_calls := by
  intro fuel
  induction fuel with
  | zero =>
    intro ov buf w _ hfuel
    split at hfuel <;> omega
  | succ n ih =>
    intro ov buf w hw hfuel
    cases ov with
    | nil =>
      exact ⟨w, buf, [], rfl, hw, by simp, by simp, by simp, rfl, rfl, rfl⟩
    | cons a l =>
      obtain ⟨w1, isNew, hget, hentry1, hsink1, hfw1, hclb1, hlc1⟩ :=
        singleStream_get f e cap buf w hw
      obtain ⟨hd1, hbs1, hlm1, hwf1, hlen1, hof1, hlk1⟩ := hentry1
      by_cases hfit : (a :: l).length ≤ cap - buf.length
      · have hwr := bufferFile_write_bytes_fit buf (a :: l) cap hfit
        have hred : write_bytes_loop f e (n + 1) w (a :: l) = some (.ok
            (withEntry w1 f e ⟨⟨buf ++ a :: l, buf.length + (a :: l).length, cap⟩, none⟩)) := by
          rw [write_bytes_loop]
          · simp [hget, hwr, withEntry]
          · simp
        have hss2 : SingleStream f e cap (buf ++ a :: l)
            (withEntry w1 f e ⟨⟨buf ++ a :: l, buf.length + (a :: l).length, cap⟩, none⟩) := by
          refine ⟨hd1, hbs1, hlm1, hwf1, ?_, Or.inr ⟨?_, Or.inr hlk1⟩⟩
          · simp only [List.length_append, List.length_cons] at hfit ⊢
            omega
          · show updateEntry w1.open_files (f, e) _ = _
            rw [hof1, updateEntry_singleton]
            simp [List.length_append]
        refine ⟨_, buf ++ a :: l, [], hred, hss2, ?_, by simp, by simp, hfw1, hclb1, hlc1⟩
        simpa using hsink1
      · have hwr := bufferFile_write_bytes_overflow buf (a :: l) cap hfit
        have hdrop : ((a :: l).drop (cap - buf.length)).length =
            (a :: l).length - (cap - buf.length) := List.length_drop _ _
        have hne : ((a :: l).drop (cap - buf.length)).isEmpty = false := by
          apply isEmpty_false_of_len_pos
          rw [hdrop]
          simp only [List.length_cons] at hfit ⊢
          omega
        have hflen : (buf ++ (a :: l).take (cap - buf.length)).length = cap := by
          simp only [List.length_append, List.length_take, List.length_cons] at hfit ⊢
          omega
        have hred : write_bytes_loop f e (n + 1) w (a :: l) =
            (match flush_buffer (withEntry w1 f e
                ⟨⟨buf ++ (a :: l).take (cap - buf.length),
                  buf.length + (cap - buf.length), cap⟩, none⟩) f e with
             | .error err => some (.error err)
             | .ok w3 => write_bytes_loop f e n w3 ((a :: l).drop (cap - buf.length))) := by
          rw [write_bytes_loop]
          · simp [hget, hwr, hne, withEntry]
          · simp
        have hentry2 : EntryStream f e cap (buf ++ (a :: l).take (cap - buf.length))
            (withEntry w1 f e
              ⟨⟨buf ++ (a :: l).take (cap - buf.length),
                buf.length + (cap - buf.length), cap⟩, none⟩) := by
          refine ⟨hd1, hbs1, hlm1, hwf1, hflen.le, ?_, hlk1⟩
          show updateEntry w1.open_files (f, e) _ = _
          rw [hof1, updateEntry_singleton]
          have hsp : buf.length + (cap - buf.length) = cap := by omega
          rw [hsp, hflen]
        obtain ⟨w3, hfl, hes3, hsink3, hfw3, hclb3, hlc3⟩ :=
          entryStream_flush f e cap _ _ hentry2
        have hfe : (buf ++ (a :: l).take (cap - buf.length)).isEmpty = false := by
          apply isEmpty_false_of_len_pos
          rw [hflen]
          omega
        rw [hfe] at hsink3
        simp only [Bool.false_eq_true, if_false] at hsink3
        have hfuel3 : 2 * ((a :: l).drop (cap - buf.length)).length + 1 +
            (if ([] : List Nat).length = cap then 1 else 0) ≤ n := by
          rw [hdrop]
          have h0 : (if ([] : List Nat).length = cap then 1 else 0) = 0 := by
            simp only [List.length_nil]
            rw [if_neg (by omega)]
          rw [h0]
          split at hfuel <;> simp only [List.length_cons] at hfit hfuel ⊢ <;> omega
        obtain ⟨w4, buf1, chunks, heq4, hss4, hsink4, hflat4, hbound4, hfw4, hclb4, hlc4⟩ :=
          ih ((a :: l).drop (cap - buf.length)) [] w3
            (singleStream_of_entryStream _ _ _ _ _ hes3) hfuel3
        refine ⟨w4, buf1, (buf ++ (a :: l).take (cap - buf.length)) :: chunks,
          ?_, hss4, ?_, ?_, ?_, ?_, ?_, ?_⟩
        · rw [hred, hfl]
          exact heq4
        · rw [hsink4, hsink3]
          simp [withEntry, hsink1, List.append_assoc]
        · rw [List.flatten_cons, List.append_assoc, hflat4]
          simp [List.append_assoc, List.take_append_drop]
        · intro c hc
          rcases List.mem_cons.mp hc with hc1 | hc2
          · rw [hc1]
            exact hflen.le
          · exact hbound4 c hc2
        · exact hfw4.trans (hfw3.trans hfw1)
        · exact hclb4.trans (hclb3.trans hclb1)
        · exact hlc4.trans (hlc3.trans hlc1)

theorem single_stream_driver (f e : String) (cap : Nat) (hcap : 1 ≤ cap) (fuel : Nat) :
    ∀ (ws : List (List Nat)) (buf : List Nat) (w : WriterContext), SingleStream f e cap buf w →
      (∀ d ∈ ws, 2 * d.length + 2 ≤ fuel) →
      ∃ w1 buf1,
        applyOps fuel w (ws.map fun d => WriterOp.wbytes f e d) = some (.ok w1) ∧
        SingleStream f e cap buf1 w1 ∧
        sinkBytes w1 ++ buf1 = sinkBytes w ++ buf ++ ws.flatten ∧
        ((∀ c ∈ w.sink, c.2.2.length ≤ cap) → ∀ c ∈ w1.sink, c.2.2.length ≤ cap) := by
  intro ws
  induction ws with
  | nil =>
    intro buf w hw _
    exact ⟨w, buf, rfl, hw, by simp, fun h => h⟩
  | cons d ds ih =>
    intro buf w hw hfuel
    have hfd : 2 * d.length + 1 + (if buf.length = cap then 1 else 0) ≤ fuel := by
      have hh := hfuel d (List.mem_cons_self d ds)
      split <;> omega
    obtain ⟨w1, buf1, chunks, heq, hss1, hsink1, hflat1, hbound1, hfw1, hclb1, hlc1⟩ :=
      single_stream_loop f e cap hcap fuel d buf w hw hfd
    have hred : applyOps fuel w ((d :: ds).map fun x => WriterOp.wbytes f e x) =
        applyOps fuel w1 (ds.map fun x => WriterOp.wbytes f e x) := by
      simp only [List.map_cons, applyOps, applyOp, write_bytes, heq]
    obtain ⟨w2, buf2, heq2, hss2, hsink2, hbound2⟩ :=
      ih buf1 w1 hss1 (fun x hx => hfuel x (List.mem_cons_of_mem d hx))
    refine ⟨w2, buf2, hred.trans heq2, hss2, ?_, ?_⟩
    · have hsb1 : sinkBytes w1 = sinkBytes w ++ chunks.flatten :=
        sinkBytes_append_chunks w w1 chunks f e hsink1
      rw [hsink2, hsb1]
      simp only [List.append_assoc, List.flatten_cons]
      congr 1
      rw [← List.append_assoc, hflat1, List.append_assoc]
    · intro hc c hcmem
      apply hbound2 ?_ c hcmem
      intro x hx
      rw [hsink1] at hx
      rcases List.mem_append.mp hx with h1 | h2
      · exact hc x h1
      · rcases List.mem_map.mp h2 with ⟨ch, hch, rfl⟩
        exact hbound1 ch hch

theorem singleStream_flush (f e : String) (cap : Nat) (buf : List Nat) (w : WriterContext)
    (h : SingleStream f e cap buf w) :
    ∃ w1, flush_buffer w f e = .ok w1 ∧ SingleStream f e cap [] w1 ∧
      w1.sink = w.sink ++ (if buf.isEmpty then [] else [(f, e, buf)]) ∧
      w1.file_writes = w.file_writes := by
  obtain ⟨w1, isNew, hget, hentry, hsink, hfw, hclb, hlc⟩ := singleStream_get f e cap buf w h
  obtain ⟨hd, hbs, hlm, hwf, hlen, hof, hlk⟩ := hentry
  have hfind : findEntry w1.open_files (f, e) = some ⟨⟨buf, buf.length, cap⟩, none⟩ := by
    rw [hof]
    simp [findEntry]
  have hget1 := get_file_entry_compute_hit w1 f e _ hlk hfind
  have heq : flush_buffer w f e = flush_buffer w1 f e := by
    simp only [flush_buffer, hget, hget1]
  obtain ⟨w2, hfl, hes, hsink2, hfw2, hclb2, hlc2⟩ :=
    entryStream_flush f e cap buf w1 ⟨hd, hbs, hlm, hwf, hlen, hof, hlk⟩
  refine ⟨w2, heq.trans hfl, singleStream_of_entryStream _ _ _ _ _ hes, ?_, hfw2.trans hfw⟩
  rw [hsink2, hsink]

theorem singleStream_flush_all (f e : String) (cap : Nat) (buf : List Nat) (w : WriterContext)
    (h : SingleStream f e cap buf w) :
    ∃ w1, flush_all w = .ok w1 ∧ SingleStream f e cap [] w1 ∧
      sinkBytes w1 = sinkBytes w ++ buf ∧
      ((∀ c ∈ w.sink, c.2.2.length ≤ cap) → ∀ c ∈ w1.sink, c.2.2.length ≤ cap) := by
  have hh := h
  obtain ⟨hd, hbs, hlm, hwf, hlen, hcase⟩ := hh
  rcases hcase with ⟨hof, hlk, hbuf⟩ | ⟨hof, hrest⟩
  · subst hbuf
    refine ⟨w, ?_, h, by simp, fun hc => hc⟩
    show flush_all_go (w.open_files.map Prod.fst) w = .ok w
    rw [hof]
    rfl
  · obtain ⟨w1, hfl, hss1, hsink1, hfw1⟩ := singleStream_flush f e cap buf w h
    refine ⟨w1, ?_, hss1, ?_, ?_⟩
    · show flush_all_go (w.open_files.map Prod.fst) w = .ok w1
      rw [hof]
      show flush_all_go [(f, e)] w = .ok w1
      simp [flush_all_go, hfl]
    · by_cases hbe : buf = []
      · subst hbe
        simp [sinkBytes, hsink1]
      · have hfe : buf.isEmpty = false := isEmpty_false_of_len_pos buf (List.length_pos.mpr hbe)
        simp [sinkBytes, hsink1, hfe]
    · intro hc c hcmem
      rw [hsink1] at hcmem
      rcases List.mem_append.mp hcmem with h1 | h2
      · exact hc c h1
      · by_cases hbe : buf = []
        · subst hbe
          simp at h2
        · have hfe : buf.isEmpty = false := isEmpty_false_of_len_pos buf (List.length_pos.mpr hbe)
          simp [hfe] at h2
          subst h2
          simpa using hlen

/-- C2: for every sequence of `write_bytes` calls on a single stream of a
fresh writer (byte-sink callback installed, buffer capacity `cap ≥ 1`),
the sink receives exactly the written bytes in the order written: after
the writes, delivered bytes plus still-buffered bytes equal the
concatenation of the writes; after the final flush the delivered bytes
are exactly that concatenation; and every delivered chunk is at most
`cap` long.  In the capacity-3 scenario, however, the sink holds
`"hi the"` after the second write and already `"hi there!"` after the
third (newline) write — writing the newline flushes the full `"re!"`
buffer — so only the final `"\n"`, not `"re!\n"`, waits for the
explicit flush. -/
theorem c2_single_stream_delivery (f e : String) (cap fuel : Nat) (ws : List (List Nat))
    (hcap : 1 ≤ cap) (hfuel : ∀ d ∈ ws, 2 * d.length + 2 ≤ fuel) :
    (∃ (w1 : WriterContext) (buf1 : List Nat) (w2 : WriterContext),
      applyOps fuel (WriterContext.new "" "" false cap true false)
        (ws.map fun d => WriterOp.wbytes f e d) = some (.ok w1) ∧
      sinkBytes w1 ++ buf1 = ws.flatten ∧
      flush_all w1 = .ok w2 ∧
      sinkBytes w2 = ws.flatten ∧
      (∀ c ∈ w2.sink, c.2.2.length ≤ cap)) ∧
    (sinkBytes (resultState (scenarioAfter 2)) = [104, 105, 32, 116, 104, 101] ∧
     sinkBytes (resultState (scenarioAfter 3)) = [104, 105, 32, 116, 104, 101, 114, 101, 33] ∧
     sinkBytes (resultState (some (flush_all (resultState (scenarioAfter 3))))) =
       [104, 105, 32, 116, 104, 101, 114, 101, 33, 10]) := by
  constructor
  · have hstart : SingleStream f e cap []
        (WriterContext.new "" "" false cap true false) :=
      ⟨rfl, rfl, rfl, rfl, by simp, Or.inl ⟨rfl, rfl, rfl⟩⟩
    obtain ⟨w1, buf1, heq, hss1, hsink1, hbound1⟩ :=
      single_stream_driver f e cap hcap fuel ws [] _ hstart hfuel
    have hsink1x : sinkBytes w1 ++ buf1 = ws.flatten := by
      simpa [sinkBytes, WriterContext.new] using hsink1
    obtain ⟨w2, hfl, hss2, hsink2, hbound2⟩ := singleStream_flush_all f e cap buf1 w1 hss1
    refine ⟨w1, buf1, w2, heq, hsink1x, hfl, ?_, ?_⟩
    · rw [hsink2]
      exact hsink1x
    · refine hbound2 (hbound1 ?_)
      intro c hc
      simp [WriterContext.new] at hc
  · exact ⟨by decide, by decide, by decide⟩

/-- The spec's scenario claim is false on the third write: writing the
newline itself flushes the full `"re!"` buffer, so the sink already holds
`"hi there!"` before any explicit flush — the remaining bytes delivered
after the second write are not withheld until the flush. -/
theorem c2_counterexample :
    scenarioAfter 3 = some (.ok (resultState (scenarioAfter 3))) ∧
    sinkBytes (resultState (scenarioAfter 2)) = [104, 105, 32, 116, 104, 101] ∧
    sinkBytes (resultState (scenarioAfter 3)) ≠ [104, 105, 32, 116, 104, 101] := by
  exact ⟨rfl, by decide, by decide⟩

/-- Witness: the delivery theorem at the scenario parameters. -/
theorem c2_witness :
    ((1 ≤ 3 ∧ ∀ d ∈ scenarioWrites, 2 * d.length + 2 ≤ 16) ∧
     ∃ (w1 : WriterContext) (buf1 : List Nat) (w2 : WriterContext),
      applyOps 16 (WriterContext.new "" "" false 3 true false)
        (scenarioWrites.map fun d => WriterOp.wbytes "test" ".txt" d) = some (.ok w1) ∧
      sinkBytes w1 ++ buf1 = scenarioWrites.flatten ∧
      flush_all w1 = .ok w2 ∧
      sinkBytes w2 = scenarioWrites.flatten ∧
      (∀ c ∈ w2.sink, c.2.2.length ≤ 3)) :=
  ⟨⟨by decide, by decide⟩,
   (c2_single_stream_delivery "test" ".txt" 3 16 scenarioWrites (by decide) (by decide)).1⟩

end FastFec
